import Mathlib

set_option maxHeartbeats 1000000
set_option maxRecDepth 100000

/-!
# Verification of `generateDocumentationIndex.py`

A shallow embedding of the documentation-index generator.  The script walks a
directory tree top-down (`os.walk` with in-place pruning), filters out the
directories `.git` and `.github` and every file that is not a Markdown file or
is literally named `README.md`, and accumulates a Markdown index: a level-1
title for the root, one heading per directory path prefix (deduplicated via a
`printed` set of slash-joined keys), and one bullet link per retained file.

The append-only string buffer `self.contents` is modeled as the list of the
exact string pieces appended to it (`Chunk`); `Chunk.render` produces the very
string the Python code appends, and the final file content is the
concatenation of the rendered chunks plus the fixed footer.  Paths are modeled
as lists of path segments (`os.walk` yields separator-free names); joining
with `/` corresponds to `os.path.join` followed by `replace(os.sep, '/')` on
the POSIX platform the script runs on.
-/

/-- A directory tree: directory name, names of the plain files directly
inside it, and its subdirectories (in the enumeration order `os.walk` would
yield them). -/
inductive DirTree where
  | node (name : String) (files : List String) (subdirs : List DirTree)

def DirTree.name : DirTree → String
  | .node n _ _ => n

def DirTree.files : DirTree → List String
  | .node _ fs _ => fs

def DirTree.subdirs : DirTree → List DirTree
  | .node _ _ ds => ds

/-- The character `/` (`os.sep` on POSIX, and the separator `'/'.join` uses). -/
def sepChar : Char := Char.ofNat 47

/-- The character `.` (`os.extsep`). -/
def extChar : Char := Char.ofNat 46

/-- Index of the last occurrence of a character in a character list
(`str.rfind` returning `none` instead of `-1`). -/
def lastIdxOf (c : Char) : List Char → Option Nat
  | [] => none
  | x :: xs =>
    match lastIdxOf c xs with
    | some i => some (i + 1)
    | none => if x = c then some 0 else none

/-- `os.path.splitext` (CPython `genericpath._splitext` with `sep = '/'`,
no `altsep`, `extsep = '.'`): split off the final extension, but treat a
last path component consisting only of leading dots as having no
extension. -/
def splitext (p : String) : String × String :=
  let cs := p.data
  let sepIndex : Int :=
    match lastIdxOf sepChar cs with
    | none => -1
    | some i => (i : Int)
  let dotIndex : Int :=
    match lastIdxOf extChar cs with
    | none => -1
    | some i => (i : Int)
  if sepIndex < dotIndex then
    let d := dotIndex.toNat
    let start := (sepIndex + 1).toNat
    if (List.range' start (d - start)).any
        (fun i => decide (cs.getD i extChar ≠ extChar)) then
      (String.mk (cs.take d), String.mk (cs.drop d))
    else
      (p, "")
  else
    (p, "")

/-- The file filter of `_filterDirectory`:
`file.endswith('.md') and file != 'README.md'`.  Python's `str.endswith` is
the suffix test on the code-point sequence. -/
def isEligibleFile (file : String) : Bool :=
  ".md".data.isSuffixOf file.data && !(file == "README.md")

/-- `files[:] = [file for file in files if file.endswith('.md') and file != 'README.md']` -/
def filterFiles (files : List String) : List String :=
  files.filter isEligibleFile

/-- The pruned directory names of `_filterDirectory`. -/
def excludedDirectories : List String := [".git", ".github"]

/-- `subdirectories[:] = [s for s in subdirectories if s not in ['.git', '.github']]` -/
def filterSubdirectories (subdirectories : List DirTree) : List DirTree :=
  subdirectories.filter (fun d => !(excludedDirectories.contains d.name))

/-- `'/'.join(parts)`; also the final link target, since on POSIX
`os.path.join` inserts `'/'` and `file.replace(os.sep, '/')` is then the
identity. -/
def joinKey : List String → String
  | [] => ""
  | [part] => part
  | part :: parts => part ++ "/" ++ joinKey parts

/-- Lexicographic comparison of code-point sequences: exactly how Python
compares two strings. -/
def charLe : List Char → List Char → Bool
  | [], _ => true
  | _ :: _, [] => false
  | a :: as, b :: bs =>
    if a.toNat < b.toNat then true
    else if b.toNat < a.toNat then false
    else charLe as bs

/-- `a <= b` on Python strings. -/
def fileLe (a b : String) : Bool := charLe a.data b.data

/-- `sorted(files)`: Python's stable sort, lexicographically ascending by
code point. -/
def sortFiles (files : List String) : List String :=
  List.insertionSort (fun a b => fileLe a b = true) files

/-- `_generateLink`: link text is the base name with `splitext` applied,
link target is the root-relative path joined with forward slashes. -/
def generateLink (file : List String) : String :=
  let name := file.getLastD ""
  let titleText := (splitext name).1
  let link := joinKey file
  "- [" ++ titleText ++ "](" ++ link ++ ")"

/-- One piece appended to the `self.contents` string buffer.  A `heading`
chunk also records (as derivable bookkeeping) the directory key it was
emitted for; `Chunk.render` gives the exact appended string. -/
inductive Chunk where
  | title (rootName : String)
  | heading (key : List String) (level : Nat) (part : String)
  | link (path : List String)
deriving DecidableEq

/-- `'#' * level`. -/
def headingMarks (level : Nat) : String :=
  String.mk (List.replicate level (Char.ofNat 35))

/-- The exact string piece the Python code appends for each chunk. -/
def Chunk.render : Chunk → String
  | .title rootName => "# " ++ rootName ++ "\n"
  | .heading _ level part => "\n" ++ headingMarks level ++ " " ++ part ++ "\n"
  | .link path => generateLink path ++ "\n"

/-- The generator's mutable state: the content buffer (as its list of
appended pieces) and the `printed` set of already-emitted slash-joined
directory keys (kept as the list of keys in insertion order). -/
structure GenState where
  contents : List Chunk
  printed : List String

/-- The loop body of `_addDirectoryHeadings`: walk the path segments left to
right, accumulate the slash-joined key per prefix, and emit a heading of
level `i + 2` for every key not yet in `printed`. -/
def addHeadingsLoop : List String → List String → Nat → GenState → GenState
  | [], _, _, st => st
  | part :: parts, accumulated, i, st =>
    let accumulated' := accumulated ++ [part]
    let key := joinKey accumulated'
    let st' :=
      if st.printed.contains key then st
      else
        { contents := st.contents ++ [Chunk.heading accumulated' (i + 2) part]
          printed := st.printed ++ [key] }
    addHeadingsLoop parts accumulated' (i + 1) st'

/-- `_addDirectoryHeadings`: `parts = relativeDirectory.split(os.sep)` is the
segment list, `accumulated = []`, enumeration starts at `i = 0`. -/
def addDirectoryHeadings (relativeDirectory : List String) (st : GenState) : GenState :=
  addHeadingsLoop relativeDirectory [] 0 st

/-- `_processDirectory`: emit headings for a non-root directory, then append
one link per file (sorted), prefixing the directory path for non-root
directories. -/
def processDirectory (relativeDirectory : List String) (files : List String)
    (st : GenState) : GenState :=
  let st1 := if relativeDirectory = [] then st else addDirectoryHeadings relativeDirectory st
  (sortFiles files).foldl
    (fun s file =>
      let filePath := if relativeDirectory = [] then [file] else relativeDirectory ++ [file]
      { s with contents := s.contents ++ [Chunk.link filePath] })
    st1

/-- One `os.walk` visit: the directory's path relative to the root (as
segments, `[]` for the root) together with its filtered file list. -/
abbrev Visit := List String × List String

mutual

/-- `os.walk` fused with the in-place pruning done by `_filterDirectory`:
yields every visited directory top-down together with its filtered files,
descending only into subdirectories that are not named `.git`/`.github`. -/
def walk : DirTree → List String → List Visit
  | DirTree.node _ files subdirs, relPath =>
    (relPath, filterFiles files) :: walkForest subdirs relPath

/-- Traverse the subdirectory list of one visited directory, skipping the
excluded names (equivalently: traversing `filterSubdirectories`). -/
def walkForest : List DirTree → List String → List Visit
  | [], _ => []
  | d :: ds, relPath =>
    (if excludedDirectories.contains d.name then []
     else walk d (relPath ++ [d.name])) ++ walkForest ds relPath

end

/-- The body of the `generate` loop: `if self._filterDirectory(...):
self._processDirectory(...)` (the filter's return value is whether any
files survived). -/
def stepVisit (st : GenState) (v : Visit) : GenState :=
  if v.2.isEmpty then st else processDirectory v.1 v.2 st

/-- The `generate` traversal loop over all visited directories. -/
def runWalk (vs : List Visit) (st : GenState) : GenState :=
  vs.foldl stepVisit st

/-- `__init__`: buffer seeded with the level-1 title line, empty printed set. -/
def initialState (rootName : String) : GenState :=
  { contents := [Chunk.title rootName], printed := [] }

/-- The chunks accumulated by a full `generate()` run. -/
def generateChunks (rootName : String) (t : DirTree) : List Chunk :=
  (runWalk (walk t []) (initialState rootName)).contents

/-- The fixed footer `_writeToFile` appends after the contents. -/
def footer : String := "\n---\n\n*This documentation index was automatically generated.*\n"

/-- The exact text written to the output file `README.md`. -/
def generateOutput (rootName : String) (t : DirTree) : String :=
  String.join ((generateChunks rootName t).map Chunk.render) ++ footer

/-- Where a console message is written. -/
inductive OutChannel where
  | stdout
  | stderr
deriving DecidableEq

/-- Observable outcome of one process run: exit status, console messages in
order, and the content written to the output file (`none` when the file is
neither created nor modified). -/
structure RunOutcome where
  exitCode : Nat
  messages : List (OutChannel × String)
  written : Option String

/-- The message printed when the root directory does not exist.  Note that
the Python code uses `print(...)`, which writes to standard output. -/
def errorMessage (rootDirectory : String) : String :=
  "Error: The specified directory \x27" ++ rootDirectory ++ "\x27 does not exist."

/-- The script's `__main__` behavior: `fs = none` models
`os.path.exists(rootDirectory)` being false; otherwise `fs` carries the
basename of the normalized root path and the directory tree found there. -/
def runScript (rootDirectory : String) (fs : Option (String × DirTree)) : RunOutcome :=
  match fs with
  | none =>
    { exitCode := 1
      messages := [(OutChannel.stdout, errorMessage rootDirectory)]
      written := none }
  | some (rootName, t) =>
    { exitCode := 0
      messages := []
      written := some (generateOutput rootName t) }

/-- Claim-side eligibility (C1's wording): the path consists of a chain of
directories none of which is named `.git` or `.github`, ending in a file of
that directory whose name ends in `.md` and is not literally `README.md`. -/
def eligiblePath : DirTree → List String → Bool
  | _, [] => false
  | t, [f] => t.files.contains f && isEligibleFile f
  | t, s :: r :: rest =>
    !(excludedDirectories.contains s)
      && t.subdirs.any (fun d => d.name == s && eligiblePath d (r :: rest))

mutual

/-- Well-formedness of a tree as a file system fragment: within each
directory file names and subdirectory names are distinct, and names contain
no path separator. -/
def wfDir : DirTree → Bool
  | DirTree.node _ files subdirs =>
    decide files.Nodup
      && decide ((subdirs.map DirTree.name).Nodup)
      && wfForest subdirs

/-- Well-formedness of every tree in a subdirectory list. -/
def wfForest : List DirTree → Bool
  | [] => true
  | d :: ds => decide (sepChar ∉ d.name.data) && wfDir d && wfForest ds

end

/-! ## Basic facts about the embedding -/

theorem walk_node (n : String) (fs : List String) (ds : List DirTree) (rp : List String) :
    walk (DirTree.node n fs ds) rp = (rp, filterFiles fs) :: walkForest ds rp := by
  rw [walk]

theorem walkForest_nil (rp : List String) : walkForest [] rp = [] := by
  rw [walkForest]

theorem walkForest_cons (d : DirTree) (ds : List DirTree) (rp : List String) :
    walkForest (d :: ds) rp =
      (if excludedDirectories.contains d.name then []
       else walk d (rp ++ [d.name])) ++ walkForest ds rp := by
  rw [walkForest]

/-- The interleaved exclusion test is the same as first pruning the
subdirectory list (as `_filterDirectory` does) and then descending. -/
theorem walkForest_eq_filter (ds : List DirTree) (rp : List String) :
    walkForest ds rp =
      (filterSubdirectories ds).flatMap (fun d => walk d (rp ++ [d.name])) := by
  induction ds with
  | nil => simp [walkForest_nil, filterSubdirectories]
  | cons d ds ih =>
    rw [walkForest_cons, ih]
    by_cases h : d.name ∈ excludedDirectories
    · simp [filterSubdirectories, List.filter_cons, h]
    · simp [filterSubdirectories, List.filter_cons, h]

theorem wfDir_node (n : String) (fs : List String) (ds : List DirTree) :
    wfDir (DirTree.node n fs ds) =
      (decide fs.Nodup && decide ((ds.map DirTree.name).Nodup) && wfForest ds) := by
  rw [wfDir]

theorem wfForest_iff (ds : List DirTree) :
    wfForest ds = true ↔ ∀ d ∈ ds, sepChar ∉ d.name.data ∧ wfDir d = true := by
  induction ds with
  | nil => simp [wfForest]
  | cons d ds ih =>
    rw [wfForest]
    simp [Bool.and_eq_true, decide_eq_true_iff, ih]

theorem wfDir_node_iff (n : String) (fs : List String) (ds : List DirTree) :
    wfDir (DirTree.node n fs ds) = true ↔
      fs.Nodup ∧ (ds.map DirTree.name).Nodup ∧
        ∀ d ∈ ds, sepChar ∉ d.name.data ∧ wfDir d = true := by
  rw [wfDir_node]
  simp [Bool.and_eq_true, decide_eq_true_iff, wfForest_iff, and_assoc]

/-- Structural strong induction over directory trees. -/
theorem DirTree.inductionOn {motive : DirTree → Prop}
    (h : ∀ n fs ds, (∀ d ∈ ds, motive d) → motive (DirTree.node n fs ds)) :
    ∀ t, motive t := by
  have aux : ∀ (k : Nat) (t : DirTree), sizeOf t ≤ k → motive t := by
    intro k
    induction k with
    | zero =>
      intro t ht
      cases t with
      | node n fs ds => rw [DirTree.node.sizeOf_spec] at ht; omega
    | succ k ih =>
      intro t ht
      cases t with
      | node n fs ds =>
        apply h
        intro d hd
        apply ih
        have h1 := List.sizeOf_lt_of_mem hd
        rw [DirTree.node.sizeOf_spec] at ht
        omega
  intro t
  exact aux (sizeOf t) t (Nat.le_refl _)

/-! ## `joinKey` is injective on nonempty lists of separator-free segments -/

theorem joinKey_data (l : List String) :
    (joinKey l).data = [sepChar].intercalate (l.map String.data) := by
  match l with
  | [] => simp [joinKey, List.intercalate]
  | [a] => simp [joinKey, List.intercalate]
  | a :: b :: r =>
    have ih := joinKey_data (b :: r)
    have hsep : ("/" : String).data = [sepChar] := by decide
    show (a ++ "/" ++ joinKey (b :: r)).data = _
    rw [String.data_append, String.data_append, hsep, ih]
    simp [List.intercalate, List.intersperse]

theorem joinKey_inj {l₁ l₂ : List String} (h₁ : l₁ ≠ []) (h₂ : l₂ ≠ [])
    (hs₁ : ∀ s ∈ l₁, sepChar ∉ s.data) (hs₂ : ∀ s ∈ l₂, sepChar ∉ s.data)
    (h : joinKey l₁ = joinKey l₂) : l₁ = l₂ := by
  have hd : (joinKey l₁).data = (joinKey l₂).data := by rw [h]
  rw [joinKey_data, joinKey_data] at hd
  have e₁ := List.splitOn_intercalate (l₁.map String.data) sepChar
    (by intro ld hld; obtain ⟨s, hs, rfl⟩ := List.mem_map.mp hld; exact hs₁ s hs)
    (by simp [h₁])
  have e₂ := List.splitOn_intercalate (l₂.map String.data) sepChar
    (by intro ld hld; obtain ⟨s, hs, rfl⟩ := List.mem_map.mp hld; exact hs₂ s hs)
    (by simp [h₂])
  have hmap : l₁.map String.data = l₂.map String.data := by
    rw [← e₁, ← e₂, hd]
  exact List.map_injective_iff.mpr (fun a b hab => String.ext hab) hmap

/-! ## Pure characterization of the heading-emission loop -/

/-- The chunks `addHeadingsLoop` appends, as a function of the printed set. -/
def newHeadingChunks : List String → List String → Nat → List String → List Chunk
  | [], _, _, _ => []
  | part :: parts, accumulated, i, printed =>
    let accumulated' := accumulated ++ [part]
    let key := joinKey accumulated'
    if printed.contains key then newHeadingChunks parts accumulated' (i + 1) printed
    else Chunk.heading accumulated' (i + 2) part ::
      newHeadingChunks parts accumulated' (i + 1) (printed ++ [key])

/-- The keys `addHeadingsLoop` appends to the printed set. -/
def newPrintedKeys : List String → List String → List String → List String
  | [], _, _ => []
  | part :: parts, accumulated, printed =>
    let accumulated' := accumulated ++ [part]
    let key := joinKey accumulated'
    if printed.contains key then newPrintedKeys parts accumulated' printed
    else key :: newPrintedKeys parts accumulated' (printed ++ [key])

theorem addHeadingsLoop_eq (parts : List String) :
    ∀ (acc : List String) (i : Nat) (st : GenState),
    addHeadingsLoop parts acc i st =
      { contents := st.contents ++ newHeadingChunks parts acc i st.printed
        printed := st.printed ++ newPrintedKeys parts acc st.printed } := by
  induction parts with
  | nil => intro acc i st; simp [addHeadingsLoop, newHeadingChunks, newPrintedKeys]
  | cons p ps ih =>
    intro acc i st
    rw [addHeadingsLoop, newHeadingChunks, newPrintedKeys]
    by_cases h : st.printed.contains (joinKey (acc ++ [p]))
    · simp only [h, if_true, ih]
    · simp only [h, if_false, Bool.false_eq_true, ih]
      simp

/-- The ordered list of all nonempty prefixes `acc ++ parts.take (j+1)` that
the heading loop ranges over. -/
def accPrefixes (acc parts : List String) : List (List String) :=
  (List.range parts.length).map (fun j => acc ++ parts.take (j + 1))

theorem accPrefixes_cons (acc : List String) (p : String) (ps : List String) :
    accPrefixes acc (p :: ps) = (acc ++ [p]) :: accPrefixes (acc ++ [p]) ps := by
  unfold accPrefixes
  rw [List.length_cons, List.range_succ_eq_map, List.map_cons, List.map_map]
  simp [Function.comp, List.take_succ_cons]

theorem accPrefixes_mem {acc parts k : List String} (hk : k ∈ accPrefixes acc parts) :
    ∃ j, j < parts.length ∧ k = acc ++ parts.take (j + 1) := by
  unfold accPrefixes at hk
  simp only [List.mem_map, List.mem_range] at hk
  obtain ⟨j, hj, rfl⟩ := hk
  exact ⟨j, hj, rfl⟩

theorem accPrefixes_ne_nil {acc parts k : List String} (hk : k ∈ accPrefixes acc parts) :
    k ≠ [] := by
  obtain ⟨j, hj, rfl⟩ := accPrefixes_mem hk
  intro hcon
  have hlen := congrArg List.length hcon
  rw [List.length_append, List.length_take] at hlen
  simp only [List.length_nil] at hlen
  omega

theorem accPrefixes_sepFree {acc parts k : List String}
    (hs : ∀ s ∈ acc ++ parts, sepChar ∉ s.data)
    (hk : k ∈ accPrefixes acc parts) : ∀ s ∈ k, sepChar ∉ s.data := by
  obtain ⟨j, hj, rfl⟩ := accPrefixes_mem hk
  intro s hsk
  rcases List.mem_append.mp hsk with h | h
  · exact hs s (List.mem_append.mpr (Or.inl h))
  · exact hs s (List.mem_append.mpr (Or.inr (List.mem_of_mem_take h)))

theorem contains_eq_decide_mem (l : List String) (a : String) :
    l.contains a = decide (a ∈ l) := by
  by_cases h : a ∈ l
  · rw [decide_eq_true h]
    show List.elem a l = true
    exact List.elem_iff.mpr h
  · rw [decide_eq_false h]
    show List.elem a l = false
    rw [Bool.eq_false_iff]
    intro hc
    exact h (List.elem_iff.mp hc)

theorem contains_append_singleton (l : List String) (a b : String) (h : b ≠ a) :
    (l ++ [a]).contains b = l.contains b := by
  rw [contains_eq_decide_mem, contains_eq_decide_mem]
  simp [h]

theorem newHeadingChunks_eq (parts : List String) :
    ∀ (acc : List String) (printed : List String),
    (∀ s ∈ acc ++ parts, sepChar ∉ s.data) →
    newHeadingChunks parts acc acc.length printed =
      ((accPrefixes acc parts).filter
        (fun k => !(printed.contains (joinKey k)))).map
        (fun k => Chunk.heading k (k.length + 1) (k.getLastD "")) := by
  induction parts with
  | nil => intro acc printed _; simp [newHeadingChunks, accPrefixes]
  | cons p ps ih =>
    intro acc printed hs
    have hs' : ∀ s ∈ (acc ++ [p]) ++ ps, sepChar ∉ s.data := by
      intro s hsmem
      apply hs
      simp only [List.mem_append, List.mem_cons, List.mem_singleton] at hsmem ⊢
      tauto
    have hlen : (acc ++ [p]).length = acc.length + 1 := by simp
    rw [newHeadingChunks, accPrefixes_cons]
    by_cases h : joinKey (acc ++ [p]) ∈ printed
    · have hc : printed.contains (joinKey (acc ++ [p])) = true := by
        rw [contains_eq_decide_mem]; exact decide_eq_true h
      rw [if_pos hc,
        List.filter_cons_of_neg
          (by show ¬(!printed.contains (joinKey (acc ++ [p]))) = true; rw [hc]; simp),
        ← hlen, ih _ _ hs']
    · have hc : printed.contains (joinKey (acc ++ [p])) = false := by
        rw [contains_eq_decide_mem]; exact decide_eq_false h
      rw [if_neg (by rw [hc]; simp),
        List.filter_cons_of_pos
          (by show (!printed.contains (joinKey (acc ++ [p]))) = true; rw [hc]; rfl),
        List.map_cons, ← hlen, ih _ _ hs']
      have hcongr : ∀ k ∈ accPrefixes (acc ++ [p]) ps,
          (!((printed ++ [joinKey (acc ++ [p])]).contains (joinKey k)))
            = (!(printed.contains (joinKey k))) := by
        intro k hk
        have hkne : joinKey k ≠ joinKey (acc ++ [p]) := by
          intro hcon
          have := joinKey_inj (accPrefixes_ne_nil hk) (by simp)
            (accPrefixes_sepFree hs' hk)
            (by intro s hsm; apply hs'; simp only [List.mem_append] at hsm ⊢; tauto)
            hcon
          obtain ⟨j, hj, hkeq⟩ := accPrefixes_mem hk
          rw [this] at hkeq
          have hlen2 := congrArg List.length hkeq
          simp only [List.length_append, List.length_take, List.length_cons,
            List.length_nil] at hlen2
          omega
        rw [contains_append_singleton _ _ _ hkne]
      rw [List.filter_congr hcongr]
      simp [List.getLastD_concat]

theorem newPrintedKeys_eq (parts : List String) :
    ∀ (acc printed : List String),
    (∀ s ∈ acc ++ parts, sepChar ∉ s.data) →
    newPrintedKeys parts acc printed =
      ((accPrefixes acc parts).filter
        (fun k => !(printed.contains (joinKey k)))).map joinKey := by
  induction parts with
  | nil => intro acc printed _; simp [newPrintedKeys, accPrefixes]
  | cons p ps ih =>
    intro acc printed hs
    have hs' : ∀ s ∈ (acc ++ [p]) ++ ps, sepChar ∉ s.data := by
      intro s hsmem
      apply hs
      simp only [List.mem_append, List.mem_cons, List.mem_singleton] at hsmem ⊢
      tauto
    rw [newPrintedKeys, accPrefixes_cons]
    by_cases h : joinKey (acc ++ [p]) ∈ printed
    · have hc : printed.contains (joinKey (acc ++ [p])) = true := by
        rw [contains_eq_decide_mem]; exact decide_eq_true h
      rw [if_pos hc,
        List.filter_cons_of_neg
          (by show ¬(!printed.contains (joinKey (acc ++ [p]))) = true; rw [hc]; simp),
        ih _ _ hs']
    · have hc : printed.contains (joinKey (acc ++ [p])) = false := by
        rw [contains_eq_decide_mem]; exact decide_eq_false h
      rw [if_neg (by rw [hc]; simp),
        List.filter_cons_of_pos
          (by show (!printed.contains (joinKey (acc ++ [p]))) = true; rw [hc]; rfl),
        List.map_cons, ih _ _ hs']
      have hcongr : ∀ k ∈ accPrefixes (acc ++ [p]) ps,
          (!((printed ++ [joinKey (acc ++ [p])]).contains (joinKey k)))
            = (!(printed.contains (joinKey k))) := by
        intro k hk
        have hkne : joinKey k ≠ joinKey (acc ++ [p]) := by
          intro hcon
          have := joinKey_inj (accPrefixes_ne_nil hk) (by simp)
            (accPrefixes_sepFree hs' hk)
            (by intro s hsm; apply hs'; simp only [List.mem_append] at hsm ⊢; tauto)
            hcon
          obtain ⟨j, hj, hkeq⟩ := accPrefixes_mem hk
          rw [this] at hkeq
          have hlen2 := congrArg List.length hkeq
          simp only [List.length_append, List.length_take, List.length_cons,
            List.length_nil] at hlen2
          omega
        rw [contains_append_singleton _ _ _ hkne]
      rw [List.filter_congr hcongr]

theorem newHeadingChunks_shape (parts : List String) :
    ∀ (acc printed : List String) (c : Chunk),
    c ∈ newHeadingChunks parts acc acc.length printed →
    ∃ k, c = Chunk.heading k (k.length + 1) (k.getLastD "") ∧ k ≠ [] := by
  induction parts with
  | nil => intro acc printed c hc; simp [newHeadingChunks] at hc
  | cons p ps ih =>
    intro acc printed c hc
    have hlen : (acc ++ [p]).length = acc.length + 1 := by simp
    rw [newHeadingChunks] at hc
    by_cases h : printed.contains (joinKey (acc ++ [p])) = true
    · rw [if_pos h, ← hlen] at hc
      exact ih _ _ _ hc
    · rw [if_neg h] at hc
      rcases List.mem_cons.mp hc with h1 | h1
      · refine ⟨acc ++ [p], ?_, by simp⟩
        rw [h1]
        simp [List.getLastD_concat]
      · rw [← hlen] at h1
        exact ih _ _ _ h1

theorem newHeadingChunks_key_mem (parts : List String) :
    ∀ (acc : List String) (i : Nat) (printed k : List String) (l : Nat) (s : String),
    Chunk.heading k l s ∈ newHeadingChunks parts acc i printed →
    k ∈ accPrefixes acc parts := by
  induction parts with
  | nil => intro _ _ _ _ _ _ hc; simp [newHeadingChunks] at hc
  | cons p ps ih =>
    intro acc i printed k l s hc
    rw [accPrefixes_cons]
    rw [newHeadingChunks] at hc
    by_cases h : printed.contains (joinKey (acc ++ [p])) = true
    · rw [if_pos h] at hc
      exact List.mem_cons_of_mem _ (ih _ _ _ _ _ _ hc)
    · rw [if_neg h] at hc
      rcases List.mem_cons.mp hc with h1 | h1
      · injection h1 with hk _ _
        rw [hk]
        exact List.mem_cons_self _ _
      · exact List.mem_cons_of_mem _ (ih _ _ _ _ _ _ h1)

/-! ## Decomposition of a generation run into per-directory chunk groups -/

def Chunk.linkPath : Chunk → Option (List String)
  | .link p => some p
  | _ => none

def Chunk.headingKey : Chunk → Option (List String)
  | .heading k _ _ => some k
  | _ => none

/-- The link paths occurring in a chunk list, in order. -/
def linkPaths (cs : List Chunk) : List (List String) :=
  cs.filterMap Chunk.linkPath

/-- The heading keys occurring in a chunk list, in order. -/
def headingKeys (cs : List Chunk) : List (List String) :=
  cs.filterMap Chunk.headingKey

/-- The heading chunks `_processDirectory` emits for one directory. -/
def dirHeadingChunks (printed : List String) (rp : List String) : List Chunk :=
  if rp = [] then [] else newHeadingChunks rp [] 0 printed

/-- The link chunks `_processDirectory` emits for one directory. -/
def dirLinkChunks (rp : List String) (files : List String) : List Chunk :=
  (sortFiles files).map
    (fun f => Chunk.link (if rp = [] then [f] else rp ++ [f]))

/-- The keys `_processDirectory` adds to the printed set for one directory. -/
def dirPrintedKeys (printed : List String) (rp : List String) : List String :=
  if rp = [] then [] else newPrintedKeys rp [] printed

theorem foldl_links_eq (g : String → List String) (l : List String) :
    ∀ st : GenState,
    (l.foldl (fun s file => { s with contents := s.contents ++ [Chunk.link (g file)] }) st) =
      { contents := st.contents ++ l.map (fun f => Chunk.link (g f))
        printed := st.printed } := by
  induction l with
  | nil => intro st; simp
  | cons f l ih =>
    intro st
    rw [List.foldl_cons, ih]
    simp

theorem processDirectory_eq (rp files : List String) (st : GenState) :
    processDirectory rp files st =
      { contents := st.contents ++ dirHeadingChunks st.printed rp ++ dirLinkChunks rp files
        printed := st.printed ++ dirPrintedKeys st.printed rp } := by
  unfold processDirectory
  by_cases h : rp = []
  · rw [if_pos h]
    rw [foldl_links_eq (fun file => if rp = [] then [file] else rp ++ [file])]
    simp [dirHeadingChunks, dirLinkChunks, dirPrintedKeys, h]
  · rw [if_neg h]
    unfold addDirectoryHeadings
    rw [addHeadingsLoop_eq,
      foldl_links_eq (fun file => if rp = [] then [file] else rp ++ [file])]
    simp [dirHeadingChunks, dirLinkChunks, dirPrintedKeys, h, newPrintedKeys]

/-- The chunks one visit contributes (`[]` when the directory is skipped). -/
def visitChunks (printed : List String) (v : Visit) : List Chunk :=
  if v.2.isEmpty then [] else dirHeadingChunks printed v.1 ++ dirLinkChunks v.1 v.2

/-- The printed keys one visit adds (`[]` when the directory is skipped). -/
def visitPrinted (printed : List String) (v : Visit) : List String :=
  if v.2.isEmpty then [] else dirPrintedKeys printed v.1

/-- The chunk groups of the visits, one group per visit in traversal order,
threading the printed set through. -/
def groupsAux : List String → List Visit → List (List Chunk)
  | _, [] => []
  | printed, v :: vs => visitChunks printed v :: groupsAux (printed ++ visitPrinted printed v) vs

/-- The printed set accumulated over a list of visits. -/
def printedAfterAux : List String → List Visit → List String
  | printed, [] => printed
  | printed, v :: vs => printedAfterAux (printed ++ visitPrinted printed v) vs

theorem stepVisit_eq (st : GenState) (v : Visit) :
    stepVisit st v =
      { contents := st.contents ++ visitChunks st.printed v
        printed := st.printed ++ visitPrinted st.printed v } := by
  unfold stepVisit visitChunks visitPrinted
  by_cases h : v.2.isEmpty
  · simp [h]
  · rw [if_neg h, if_neg h, if_neg h, processDirectory_eq]
    simp

theorem runWalk_eq (vs : List Visit) :
    ∀ st : GenState,
    runWalk vs st =
      { contents := st.contents ++ (groupsAux st.printed vs).flatten
        printed := printedAfterAux st.printed vs } := by
  induction vs with
  | nil => intro st; simp [runWalk, groupsAux, printedAfterAux]
  | cons v vs ih =>
    intro st
    show runWalk vs (stepVisit st v) = _
    rw [ih, stepVisit_eq]
    simp [groupsAux, printedAfterAux]

/-- The full run: the title chunk followed by the per-visit groups. -/
theorem generateChunks_eq (rootName : String) (t : DirTree) :
    generateChunks rootName t =
      Chunk.title rootName :: (groupsAux [] (walk t [])).flatten := by
  unfold generateChunks initialState
  rw [runWalk_eq]
  simp

/-! ## Link paths of a run -/

/-- The link paths one visit contributes: one per retained file, the
directory path extended by the file name. -/
def visitLinkPaths (v : Visit) : List (List String) :=
  (sortFiles v.2).map (fun f => v.1 ++ [f])

theorem linkPath_if (rp : List String) (f : String) :
    (if rp = [] then [f] else rp ++ [f]) = rp ++ [f] := by
  by_cases h : rp = [] <;> simp [h]

theorem linkPaths_newHeadingChunks (parts : List String) :
    ∀ (acc : List String) (i : Nat) (printed : List String),
    (newHeadingChunks parts acc i printed).filterMap Chunk.linkPath = [] := by
  induction parts with
  | nil => intro acc i printed; simp [newHeadingChunks]
  | cons p ps ih =>
    intro acc i printed
    rw [newHeadingChunks]
    by_cases h : printed.contains (joinKey (acc ++ [p])) = true
    · rw [if_pos h, ih]
    · rw [if_neg h, List.filterMap_cons]
      show List.filterMap Chunk.linkPath (newHeadingChunks ps (acc ++ [p]) (i + 1) _) = []
      rw [ih]

theorem linkPaths_dirLinkChunks (rp files : List String) :
    (dirLinkChunks rp files).filterMap Chunk.linkPath =
      (sortFiles files).map (fun f => rp ++ [f]) := by
  unfold dirLinkChunks
  rw [List.filterMap_map]
  have : (Chunk.linkPath ∘ fun f => Chunk.link (if rp = [] then [f] else rp ++ [f]))
      = (some ∘ fun f => rp ++ [f]) := by
    funext f
    simp [Chunk.linkPath, Function.comp, linkPath_if]
  rw [this, List.filterMap_eq_map]

theorem linkPaths_visitChunks (printed : List String) (v : Visit) :
    (visitChunks printed v).filterMap Chunk.linkPath = visitLinkPaths v := by
  unfold visitChunks visitLinkPaths
  by_cases h : v.2.isEmpty
  · rw [if_pos h, List.isEmpty_iff.mp h]
    simp [sortFiles, List.insertionSort]
  · rw [if_neg h, List.filterMap_append, linkPaths_dirLinkChunks]
    unfold dirHeadingChunks
    by_cases h2 : v.1 = []
    · rw [if_pos h2]
      simp
    · rw [if_neg h2, linkPaths_newHeadingChunks]
      simp

theorem linkPaths_groupsAux (vs : List Visit) :
    ∀ printed : List String,
    ((groupsAux printed vs).flatten).filterMap Chunk.linkPath =
      vs.flatMap visitLinkPaths := by
  induction vs with
  | nil => intro printed; simp [groupsAux]
  | cons v vs ih =>
    intro printed
    rw [groupsAux]
    simp only [List.flatten_cons, List.filterMap_append, List.flatMap_cons]
    rw [linkPaths_visitChunks, ih]

theorem linkPaths_generateChunks (rootName : String) (t : DirTree) :
    linkPaths (generateChunks rootName t) = (walk t []).flatMap visitLinkPaths := by
  rw [generateChunks_eq]
  unfold linkPaths
  rw [List.filterMap_cons]
  show ((groupsAux [] (walk t [])).flatten).filterMap Chunk.linkPath = _
  rw [linkPaths_groupsAux]

/-! ## Each eligible file is linked exactly once (C1) -/

/-- All link paths produced while walking a subtree rooted at `rp`. -/
def walkLinks (t : DirTree) (rp : List String) : List (List String) :=
  (walk t rp).flatMap visitLinkPaths

/-- All link paths produced while walking a subdirectory list at `rp`. -/
def forestLinks (ds : List DirTree) (rp : List String) : List (List String) :=
  (walkForest ds rp).flatMap visitLinkPaths

theorem walkLinks_node (n : String) (fs : List String) (ds : List DirTree)
    (rp : List String) :
    walkLinks (DirTree.node n fs ds) rp =
      (sortFiles (filterFiles fs)).map (fun f => rp ++ [f]) ++ forestLinks ds rp := by
  unfold walkLinks forestLinks
  rw [walk_node, List.flatMap_cons]
  rfl

theorem forestLinks_nil (rp : List String) : forestLinks [] rp = [] := by
  unfold forestLinks
  rw [walkForest_nil]
  rfl

theorem forestLinks_cons (d : DirTree) (ds : List DirTree) (rp : List String) :
    forestLinks (d :: ds) rp =
      (if excludedDirectories.contains d.name then []
       else walkLinks d (rp ++ [d.name])) ++ forestLinks ds rp := by
  unfold forestLinks walkLinks
  rw [walkForest_cons, List.flatMap_append]
  by_cases h : excludedDirectories.contains d.name = true
  · rw [if_pos h, if_pos h]
    rfl
  · rw [if_neg h, if_neg h]

theorem walkForest_visit_prefix :
    ∀ (ds : List DirTree) (rp : List String) (v : Visit),
    (∀ d ∈ ds, ∀ (rp' : List String) (v' : Visit),
      v' ∈ walk d rp' → ∃ e, v'.1 = rp' ++ e) →
    v ∈ walkForest ds rp → ∃ e, v.1 = rp ++ e ∧ e ≠ [] := by
  intro ds
  induction ds with
  | nil =>
    intro rp v _ hv
    rw [walkForest_nil] at hv
    simp at hv
  | cons d ds ih =>
    intro rp v IH hv
    rw [walkForest_cons] at hv
    rcases List.mem_append.mp hv with h2 | h2
    · by_cases hex : excludedDirectories.contains d.name = true
      · rw [if_pos hex] at h2
        simp at h2
      · rw [if_neg hex] at h2
        obtain ⟨e, he⟩ := IH d (List.mem_cons_self _ _) (rp ++ [d.name]) v h2
        exact ⟨d.name :: e, by rw [he]; simp, by simp⟩
    · exact ih rp v (fun d' hd' => IH d' (List.mem_cons_of_mem _ hd')) h2

theorem walk_visit_prefix (t : DirTree) :
    ∀ (rp : List String) (v : Visit), v ∈ walk t rp → ∃ e, v.1 = rp ++ e := by
  induction t using DirTree.inductionOn with
  | h n fs ds ihds =>
    intro rp v hv
    rw [walk_node] at hv
    rcases List.mem_cons.mp hv with h1 | h1
    · exact ⟨[], by rw [h1]; simp⟩
    · obtain ⟨e, he, _⟩ := walkForest_visit_prefix ds rp v ihds h1
      exact ⟨e, he⟩

theorem mem_walkLinks {t : DirTree} {rp p : List String} (hp : p ∈ walkLinks t rp) :
    ∃ q, p = rp ++ q ∧ q ≠ [] := by
  unfold walkLinks at hp
  rw [List.mem_flatMap] at hp
  obtain ⟨v, hv, hpv⟩ := hp
  unfold visitLinkPaths at hpv
  rw [List.mem_map] at hpv
  obtain ⟨f, _, rfl⟩ := hpv
  obtain ⟨e, he⟩ := walk_visit_prefix t rp v hv
  exact ⟨e ++ [f], by rw [he, List.append_assoc], by simp⟩

theorem count_walkLinks_zero (t : DirTree) {rp p : List String}
    (h : ¬ rp <+: p) : List.count p (walkLinks t rp) = 0 := by
  apply List.count_eq_zero_of_not_mem
  intro hp
  obtain ⟨q, rfl, _⟩ := mem_walkLinks hp
  exact h ⟨q, rfl⟩

/-- The child-directory part of `eligiblePath` at a node. -/
def eligibleChild (ds : List DirTree) (q : List String) : Bool :=
  match q with
  | s :: _ :: _ =>
    !(excludedDirectories.contains s)
      && ds.any (fun d => d.name == s && eligiblePath d q.tail)
  | _ => false

theorem eligiblePath_nil (t : DirTree) : eligiblePath t [] = false := by
  rw [eligiblePath]

theorem eligiblePath_single (n : String) (fs : List String) (ds : List DirTree)
    (f : String) :
    eligiblePath (DirTree.node n fs ds) [f] = (fs.contains f && isEligibleFile f) := by
  rw [eligiblePath]
  rfl

theorem eligiblePath_cons₂ (n : String) (fs : List String) (ds : List DirTree)
    (s r : String) (rest : List String) :
    eligiblePath (DirTree.node n fs ds) (s :: r :: rest) =
      eligibleChild ds (s :: r :: rest) := by
  rw [eligiblePath, eligibleChild]
  rfl

theorem eligibleChild_nil (ds : List DirTree) : eligibleChild ds [] = false := rfl

theorem eligibleChild_single (ds : List DirTree) (s : String) :
    eligibleChild ds [s] = false := rfl

theorem eligibleChild_cons_excluded (d : DirTree) (ds : List DirTree)
    (q : List String) (hex : excludedDirectories.contains d.name = true) :
    eligibleChild (d :: ds) q = eligibleChild ds q := by
  match q with
  | [] => rfl
  | [s] => rfl
  | s :: r :: rest =>
    unfold eligibleChild
    simp only [List.any_cons, List.tail_cons]
    by_cases hs : d.name = s
    · subst hs
      rw [hex]
      simp
    · have hbeq : (d.name == s) = false := by simp [hs]
      rw [hbeq]
      simp

theorem eligibleChild_cons_ne (d : DirTree) (ds : List DirTree)
    (s r : String) (rest : List String) (hne : d.name ≠ s) :
    eligibleChild (d :: ds) (s :: r :: rest) = eligibleChild ds (s :: r :: rest) := by
  unfold eligibleChild
  simp only [List.any_cons, List.tail_cons]
  have hbeq : (d.name == s) = false := by simp [hne]
  rw [hbeq]
  simp

theorem eligibleChild_none (ds : List DirTree) (s r : String) (rest : List String)
    (hnot : ∀ d' ∈ ds, d'.name ≠ s) :
    eligibleChild ds (s :: r :: rest) = false := by
  unfold eligibleChild
  simp only [List.tail_cons]
  have hany : (ds.any fun d' => d'.name == s && eligiblePath d' (r :: rest)) = false := by
    rw [List.any_eq_false]
    intro d' hd'
    simp [hnot d' hd']
  rw [hany]
  simp

theorem eligibleChild_cons_name (d : DirTree) (ds : List DirTree)
    (r : String) (rest : List String)
    (hex : excludedDirectories.contains d.name = false)
    (hnot : ∀ d' ∈ ds, d'.name ≠ d.name) :
    eligibleChild (d :: ds) (d.name :: r :: rest) = eligiblePath d (r :: rest) := by
  unfold eligibleChild
  simp only [List.any_cons, List.tail_cons, beq_self_eq_true, Bool.true_and, hex,
    Bool.not_false]
  have hany : (ds.any fun d' => d'.name == d.name && eligiblePath d' (r :: rest)) = false := by
    rw [List.any_eq_false]
    intro d' hd'
    simp [hnot d' hd']
  rw [hany]
  simp

theorem count_walkLinks_zero_len (t : DirTree) {rp p : List String}
    (h : p.length ≤ rp.length) : List.count p (walkLinks t rp) = 0 := by
  apply List.count_eq_zero_of_not_mem
  intro hp
  obtain ⟨q, rfl, hq⟩ := mem_walkLinks hp
  rw [List.length_append] at h
  have : q.length = 0 := by omega
  exact hq (List.length_eq_zero.mp this)

theorem count_forestLinks :
    ∀ (ds : List DirTree) (rp q : List String),
    (∀ d ∈ ds, ∀ (rp' q' : List String), wfDir d = true →
      List.count (rp' ++ q') (walkLinks d rp') =
        if eligiblePath d q' = true then 1 else 0) →
    ((ds.map DirTree.name).Nodup) →
    (∀ d ∈ ds, wfDir d = true) →
    List.count (rp ++ q) (forestLinks ds rp) =
      if eligibleChild ds q = true then 1 else 0 := by
  intro ds
  induction ds with
  | nil =>
    intro rp q _ _ _
    rw [forestLinks_nil]
    have hq : eligibleChild [] q = false := by
      match q with
      | [] => rfl
      | [s] => rfl
      | s :: r :: rest => unfold eligibleChild; simp
    rw [hq]
    simp
  | cons d ds ih =>
    intro rp q IH hnodup hwf
    have hnodup' : (ds.map DirTree.name).Nodup := by
      rw [List.map_cons] at hnodup
      exact hnodup.of_cons
    have hwf' : ∀ d' ∈ ds, wfDir d' = true :=
      fun d' hd' => hwf d' (List.mem_cons_of_mem _ hd')
    have IH' := fun d' hd' => IH d' (List.mem_cons_of_mem _ hd')
    have ihrec := ih rp q IH' hnodup' hwf'
    rw [forestLinks_cons, List.count_append]
    by_cases hex : d.name ∈ excludedDirectories
    · have hexc : excludedDirectories.contains d.name = true := by
        rw [contains_eq_decide_mem]; exact decide_eq_true hex
      rw [if_pos hexc, List.count_nil, Nat.zero_add, ihrec,
        eligibleChild_cons_excluded d ds q hexc]
    · have hexc : excludedDirectories.contains d.name = false := by
        rw [contains_eq_decide_mem]; exact decide_eq_false hex
      rw [if_neg (by rw [hexc]; simp)]
      rcases q with _ | ⟨s, _ | ⟨r, rest⟩⟩
      · rw [count_walkLinks_zero_len d (by simp), ihrec, Nat.zero_add,
          eligibleChild_nil, eligibleChild_nil]
      · rw [count_walkLinks_zero_len d (by simp), ihrec, Nat.zero_add,
          eligibleChild_single, eligibleChild_single]
      · by_cases hs : d.name = s
        · subst hs
          have hnot : ∀ d' ∈ ds, d'.name ≠ d.name := by
            rw [List.map_cons, List.nodup_cons] at hnodup
            intro d' hd' hcon
            exact hnodup.1 (hcon ▸ List.mem_map_of_mem DirTree.name hd')
          have h1 : rp ++ d.name :: r :: rest = (rp ++ [d.name]) ++ (r :: rest) := by
            simp
          rw [h1, IH d (List.mem_cons_self _ _) (rp ++ [d.name]) (r :: rest)
            (hwf d (List.mem_cons_self _ _))]
          rw [← h1, ihrec, eligibleChild_none ds d.name r rest hnot,
            eligibleChild_cons_name d ds r rest hexc hnot]
          simp
        · have hnp : ¬ (rp ++ [d.name]) <+: (rp ++ s :: r :: rest) := by
            intro hcon
            rw [List.prefix_append_right_inj] at hcon
            exact hs (List.cons_prefix_cons.mp hcon).1
          rw [count_walkLinks_zero d hnp, ihrec, Nat.zero_add,
            eligibleChild_cons_ne d ds s r rest hs]

theorem count_map_rp_ne_one (rp : List String) (L : List String) (q : List String)
    (hq : q.length ≠ 1) :
    List.count (rp ++ q) (L.map (fun f => rp ++ [f])) = 0 := by
  apply List.count_eq_zero_of_not_mem
  intro hmem
  rw [List.mem_map] at hmem
  obtain ⟨f, _, heq⟩ := hmem
  have := List.append_cancel_left heq
  apply hq
  rw [← this]
  rfl

theorem count_nodup_mem {α : Type} [BEq α] [LawfulBEq α] {l : List α} {a : α}
    (hnd : l.Nodup) (ha : a ∈ l) : List.count a l = 1 := by
  induction l with
  | nil => cases ha
  | cons b l ih =>
    rw [List.count_cons]
    rcases List.mem_cons.mp ha with rfl | hmem
    · rw [List.count_eq_zero_of_not_mem (List.nodup_cons.mp hnd).1]
      simp
    · rw [ih (List.nodup_cons.mp hnd).2 hmem]
      have hbeq : (b == a) = false := by
        rw [beq_eq_false_iff_ne]
        rintro rfl
        exact (List.nodup_cons.mp hnd).1 hmem
      rw [hbeq]
      rfl

theorem count_map_rp_single (rp : List String) (L : List String) (f : String) :
    List.count (rp ++ [f]) (L.map (fun g => rp ++ [g])) = List.count f L := by
  induction L with
  | nil => rfl
  | cons g L ih =>
    rw [List.map_cons, List.count_cons, List.count_cons, ih]
    by_cases h : g = f
    · subst h
      simp
    · have h1 : (rp ++ [g] == rp ++ [f]) = false := by
        rw [beq_eq_false_iff_ne]
        intro hcon
        exact h (by simpa using List.append_cancel_left hcon)
      have h2 : (g == f) = false := beq_eq_false_iff_ne.mpr h
      rw [h1, h2]

theorem count_filterFiles (fs : List String) (hnd : fs.Nodup) (f : String) :
    List.count f (filterFiles fs) =
      if (fs.contains f && isEligibleFile f) = true then 1 else 0 := by
  by_cases hmem : f ∈ filterFiles fs
  · unfold filterFiles
    rw [count_nodup_mem (hnd.filter _) (by unfold filterFiles at hmem; exact hmem)]
    unfold filterFiles at hmem
    rw [List.mem_filter] at hmem
    have hiff : (fs.contains f && isEligibleFile f) = true := by
      rw [contains_eq_decide_mem, decide_eq_true hmem.1, hmem.2]
      rfl
    rw [hiff]
    rfl
  · rw [List.count_eq_zero_of_not_mem hmem]
    have hiff : (fs.contains f && isEligibleFile f) = false := by
      rw [contains_eq_decide_mem]
      by_cases h1 : f ∈ fs
      · by_cases h2 : isEligibleFile f = true
        · exact absurd (List.mem_filter.mpr ⟨h1, h2⟩) hmem
        · rw [Bool.not_eq_true] at h2
          rw [h2]
          simp
      · rw [decide_eq_false h1]
        simp
    rw [hiff]
    simp

theorem count_sortFiles (L : List String) (f : String) :
    List.count f (sortFiles L) = List.count f L :=
  (List.perm_insertionSort _ L).countP_eq _

theorem count_walkLinks (t : DirTree) :
    ∀ (rp q : List String), wfDir t = true →
    List.count (rp ++ q) (walkLinks t rp) =
      if eligiblePath t q = true then 1 else 0 := by
  induction t using DirTree.inductionOn with
  | h n fs ds ihds =>
    intro rp q hwf
    rw [wfDir_node_iff] at hwf
    obtain ⟨hfs, hnames, hsub⟩ := hwf
    have hwfds : ∀ d ∈ ds, wfDir d = true := fun d hd => (hsub d hd).2
    have hforest := count_forestLinks ds rp q ihds hnames hwfds
    rw [walkLinks_node, List.count_append]
    rcases q with _ | ⟨s, _ | ⟨r, rest⟩⟩
    · rw [eligiblePath_nil, count_map_rp_ne_one rp _ [] (by simp), hforest,
        eligibleChild_nil, Nat.zero_add]
    · have hmap : List.count (rp ++ [s])
          ((sortFiles (filterFiles fs)).map (fun f => rp ++ [f])) =
          if (fs.contains s && isEligibleFile s) = true then 1 else 0 := by
        rw [count_map_rp_single, count_sortFiles, count_filterFiles fs hfs s]
      rw [hmap, hforest, eligibleChild_single, eligiblePath_single]
      simp
    · rw [eligiblePath_cons₂, count_map_rp_ne_one rp _ (s :: r :: rest) (by simp),
        hforest, Nat.zero_add]

/-! ## Claim C1 -/

/-- C1: For every directory tree (well-formed as a file system: distinct,
separator-free names), every file whose name ends in `.md`, except any
literally named `README.md` and any located under a directory named `.git`
or `.github` at any depth, appears exactly once as a bullet link in the
generated output, and no other file appears as a link.  (`eligiblePath`
states the claim's eligibility condition; the link chunks of the output are
counted.) -/
theorem C1_links_exactly_once (rootName : String) (t : DirTree)
    (hwf : wfDir t = true) (p : List String) :
    List.count p (linkPaths (generateChunks rootName t)) =
      if eligiblePath t p = true then 1 else 0 := by
  rw [linkPaths_generateChunks]
  have h := count_walkLinks t [] p hwf
  unfold walkLinks at h
  simpa using h

/-- A small concrete directory tree used to instantiate the theorems. -/
def sampleTree : DirTree :=
  DirTree.node "root" ["b.md", "a.md", "README.md", "x.txt"]
    [ DirTree.node "docs" ["x.md"] [DirTree.node "api" ["z.md", "y.md"] []],
      DirTree.node ".github" ["n.md"] [],
      DirTree.node "empty" [] [] ]

/-- Witness for C1 at a concrete tree and path. -/
theorem C1_links_exactly_once_witness :
    wfDir sampleTree = true ∧
    List.count ["docs", "x.md"] (linkPaths (generateChunks "root" sampleTree)) =
      if eligiblePath sampleTree ["docs", "x.md"] = true then 1 else 0 :=
  ⟨by decide, C1_links_exactly_once "root" sampleTree (by decide) ["docs", "x.md"]⟩

/-! ## Claim C2 -/

/-- C2 (counterexample): when the root directory does not exist the process
does exit with status 1 without touching the output file, but the error
message goes to standard output — no message at all is written to standard
error, refuting the claim's "writes an error message to standard error". -/
theorem C2_stderr_counterexample :
    (runScript "missing" none).exitCode = 1 ∧
    (runScript "missing" none).written = none ∧
    (runScript "missing" none).messages ≠ [] ∧
    ∀ m ∈ (runScript "missing" none).messages, m.1 ≠ OutChannel.stderr := by
  refine ⟨rfl, rfl, by decide, by decide⟩

/-- C2 (amended): if the root directory does not exist, the process prints
the error message to standard output (Python's `print`), exits with status
1, and the output file is neither created nor modified. -/
theorem C2_exit_message_no_write (rootDirectory : String) :
    runScript rootDirectory none =
      { exitCode := 1
        messages := [(OutChannel.stdout, errorMessage rootDirectory)]
        written := none } := rfl

/-! ## Claim C7 -/

/-- C7: every emitted link line has the format `- [<text>](<target>)` where
the text is the file's base name with its extension stripped (`splitext`)
and the target is the file's root-relative path joined with forward
slashes. -/
theorem C7_link_format (rootName : String) (t : DirTree) (p : List String)
    (hp : Chunk.link p ∈ generateChunks rootName t) :
    ∃ v ∈ walk t [], ∃ f ∈ v.2, p = v.1 ++ [f] ∧
      (Chunk.link p).render =
        "- [" ++ (splitext f).1 ++ "](" ++ joinKey p ++ ")" ++ "\n" := by
  have hlp : p ∈ linkPaths (generateChunks rootName t) := by
    unfold linkPaths
    rw [List.mem_filterMap]
    exact ⟨Chunk.link p, hp, rfl⟩
  rw [linkPaths_generateChunks, List.mem_flatMap] at hlp
  obtain ⟨v, hv, hpv⟩ := hlp
  unfold visitLinkPaths at hpv
  rw [List.mem_map] at hpv
  obtain ⟨f, hf, rfl⟩ := hpv
  refine ⟨v, hv, f, ?_, rfl, ?_⟩
  · exact ((List.perm_insertionSort _ v.2).mem_iff).mp hf
  · show generateLink (v.1 ++ [f]) ++ "\n" = _
    unfold generateLink
    rw [List.getLastD_concat]

/-- Witness for C7 at a concrete tree and link path. -/
theorem C7_link_format_witness :
    Chunk.link ["docs", "x.md"] ∈ generateChunks "root" sampleTree ∧
    ∃ v ∈ walk sampleTree [], ∃ f ∈ v.2, ["docs", "x.md"] = v.1 ++ [f] ∧
      (Chunk.link ["docs", "x.md"]).render =
        "- [" ++ (splitext f).1 ++ "](" ++ joinKey ["docs", "x.md"] ++ ")" ++ "\n" :=
  ⟨by decide, C7_link_format "root" sampleTree ["docs", "x.md"] (by decide)⟩

/-! ## Claim C8 -/

/-- C8: the generator is idempotent.  The only file the first run creates or
modifies is `README.md` in the root directory; inserting (or removing) a
root `README.md` does not change the generated output, so a second run on
the otherwise-unchanged tree produces byte-identical output. -/
theorem C8_readme_invariant (rootName n : String) (files₁ files₂ : List String)
    (subdirs : List DirTree) :
    generateOutput rootName (DirTree.node n (files₁ ++ "README.md" :: files₂) subdirs) =
      generateOutput rootName (DirTree.node n (files₁ ++ files₂) subdirs) := by
  have hf : filterFiles (files₁ ++ "README.md" :: files₂) =
      filterFiles (files₁ ++ files₂) := by
    unfold filterFiles
    rw [List.filter_append, List.filter_append, List.filter_cons_of_neg (by decide)]
  unfold generateOutput generateChunks runWalk
  rw [walk_node, walk_node, hf]

/-! ## Claim C9 -/

/-- C9 (counterexample): a file named exactly `.md` does pass the
eligibility filter, but `os.path.splitext` treats a leading dot as part of
the root, so the link text is `.md`, not empty: the emitted link is
`- [.md](.md)`, not `- [](.md)`. -/
theorem C9_empty_text_counterexample :
    filterFiles [".md"] = [".md"] ∧
    generateLink [".md"] = "- [.md](.md)" ∧
    generateLink [".md"] ≠ "- [](.md)" := by
  refine ⟨by decide, by decide, by decide⟩

/-- C9 (amended): a file named exactly `.md` passes the eligibility filter
(it ends with `.md` and is not named `README.md`) and, located in the root,
produces the link `- [.md](.md)` — `splitext` strips nothing because the
name's only dot is a leading dot. -/
theorem C9_dotmd_link :
    filterFiles [".md"] = [".md"] ∧
    splitext ".md" = (".md", "") ∧
    generateChunks "r" (DirTree.node "r" [".md"] []) =
      [Chunk.title "r", Chunk.link [".md"]] ∧
    (Chunk.link [".md"]).render = "- [.md](.md)\n" := by
  refine ⟨by decide, by decide, by decide, by decide⟩

/-! ## Claim C10 -/

/-- C10: for a multi-dot file name only the final extension is stripped:
`a.b.md` yields the link `- [a.b](a.b.md)`. -/
theorem C10_multidot_link :
    splitext "a.b.md" = ("a.b", ".md") ∧
    generateLink ["a.b.md"] = "- [a.b](a.b.md)" ∧
    generateChunks "r" (DirTree.node "r" ["a.b.md"] []) =
      [Chunk.title "r", Chunk.link ["a.b.md"]] := by
  refine ⟨by decide, by decide, by decide⟩

/-! ## Heading keys: basic structure -/

theorem contains_append (l₁ l₂ : List String) (a : String) :
    (l₁ ++ l₂).contains a = (l₁.contains a || l₂.contains a) := by
  rw [contains_eq_decide_mem, contains_eq_decide_mem, contains_eq_decide_mem]
  by_cases h : a ∈ l₁ <;> by_cases h2 : a ∈ l₂ <;> simp [h, h2]

theorem mem_map_joinKey_iff {l' : List (List String)} {k : List String}
    (hk : k ≠ []) (hks : ∀ s ∈ k, sepChar ∉ s.data)
    (hl : ∀ x ∈ l', x ≠ [] ∧ ∀ s ∈ x, sepChar ∉ s.data) :
    joinKey k ∈ l'.map joinKey ↔ k ∈ l' := by
  constructor
  · intro h
    rw [List.mem_map] at h
    obtain ⟨x, hx, hxe⟩ := h
    have hxk := joinKey_inj (hl x hx).1 hk (hl x hx).2 hks hxe
    rwa [← hxk]
  · intro h
    exact List.mem_map_of_mem _ h

theorem mem_accPrefixes_nil_iff (dp k : List String) :
    k ∈ accPrefixes [] dp ↔ (k ≠ [] ∧ k <+: dp) := by
  constructor
  · intro h
    obtain ⟨j, hj, rfl⟩ := accPrefixes_mem h
    refine ⟨accPrefixes_ne_nil h, ?_⟩
    rw [List.nil_append]
    exact List.take_prefix _ _
  · rintro ⟨hne, hpre⟩
    unfold accPrefixes
    rw [List.mem_map]
    refine ⟨k.length - 1, ?_, ?_⟩
    · rw [List.mem_range]
      have h1 := hpre.length_le
      have h2 : k.length ≠ 0 := fun hc => hne (List.length_eq_zero.mp hc)
      omega
    · have h2 : k.length ≠ 0 := fun hc => hne (List.length_eq_zero.mp hc)
      have h3 : k.length - 1 + 1 = k.length := by omega
      rw [h3, List.nil_append, ← List.prefix_iff_eq_take.mp hpre]

theorem accPrefixes_pairwise_length (acc parts : List String) :
    (accPrefixes acc parts).Pairwise (fun a b => a.length < b.length) := by
  unfold accPrefixes
  rw [List.pairwise_map]
  have h := (List.Pairwise.and_mem.mp (List.pairwise_lt_range parts.length))
  refine h.imp ?_
  intro a b hab
  obtain ⟨ha, hb, hlt⟩ := hab
  rw [List.mem_range] at ha hb
  simp only [List.length_append, List.length_take]
  omega

theorem accPrefixes_nodup (acc parts : List String) :
    (accPrefixes acc parts).Nodup := by
  have h := accPrefixes_pairwise_length acc parts
  refine h.imp ?_
  intro a b hab hcon
  rw [hcon] at hab
  omega

theorem headingKeys_dirLinkChunks (rp files : List String) :
    (dirLinkChunks rp files).filterMap Chunk.headingKey = [] := by
  unfold dirLinkChunks
  rw [List.filterMap_map]
  have h : (Chunk.headingKey ∘ fun f => Chunk.link (if rp = [] then [f] else rp ++ [f]))
      = fun _ => none := by
    funext f
    simp [Chunk.headingKey, Function.comp]
  rw [h]
  simp

theorem headingKeys_map_heading (l' : List (List String)) :
    (l'.map (fun k => Chunk.heading k (k.length + 1) (k.getLastD ""))).filterMap
      Chunk.headingKey = l' := by
  rw [List.filterMap_map]
  have h : (Chunk.headingKey ∘ fun k => Chunk.heading k (k.length + 1) (k.getLastD ""))
      = some := by
    funext k
    simp [Chunk.headingKey, Function.comp]
  rw [h, List.filterMap_some]

theorem headingKeys_visitChunks (printed : List String) (v : Visit)
    (hsep : ∀ s ∈ v.1, sepChar ∉ s.data) :
    headingKeys (visitChunks printed v) =
      if v.2.isEmpty then []
      else (accPrefixes [] v.1).filter (fun k => !(printed.contains (joinKey k))) := by
  unfold visitChunks headingKeys
  by_cases h : v.2.isEmpty
  · rw [if_pos h, if_pos h]
    rfl
  · rw [if_neg h, if_neg h, List.filterMap_append, headingKeys_dirLinkChunks,
      List.append_nil]
    unfold dirHeadingChunks
    by_cases h2 : v.1 = []
    · rw [if_pos h2, h2]
      unfold accPrefixes
      simp
    · rw [if_neg h2]
      have h0 : (0 : Nat) = ([] : List String).length := rfl
      rw [show newHeadingChunks v.1 [] 0 printed
          = newHeadingChunks v.1 [] ([] : List String).length printed from rfl,
        newHeadingChunks_eq v.1 [] printed (by simpa using hsep),
        headingKeys_map_heading]

/-- Some processed (file-bearing) visited directory lies at or beneath key `k`. -/
def keyDone (vs : List Visit) (k : List String) : Bool :=
  vs.any (fun v => !(v.2.isEmpty) && k.isPrefixOf v.1)

theorem walkForest_visit_sepFree :
    ∀ (ds : List DirTree) (rp : List String) (v : Visit),
    (∀ d ∈ ds, wfDir d = true → ∀ (rp' : List String) (v' : Visit),
      v' ∈ walk d rp' → ∃ e, v'.1 = rp' ++ e ∧ ∀ s ∈ e, sepChar ∉ s.data) →
    (∀ d ∈ ds, sepChar ∉ d.name.data ∧ wfDir d = true) →
    v ∈ walkForest ds rp → ∃ e, v.1 = rp ++ e ∧ ∀ s ∈ e, sepChar ∉ s.data := by
  intro ds
  induction ds with
  | nil =>
    intro rp v _ _ hv
    rw [walkForest_nil] at hv
    simp at hv
  | cons d ds ih =>
    intro rp v IH hwf hv
    rw [walkForest_cons] at hv
    rcases List.mem_append.mp hv with h2 | h2
    · by_cases hex : excludedDirectories.contains d.name = true
      · rw [if_pos hex] at h2
        simp at h2
      · rw [if_neg hex] at h2
        obtain ⟨e, he, hes⟩ := IH d (List.mem_cons_self _ _)
          (hwf d (List.mem_cons_self _ _)).2 (rp ++ [d.name]) v h2
        refine ⟨d.name :: e, by rw [he]; simp, ?_⟩
        intro s hs
        rcases List.mem_cons.mp hs with rfl | hs2
        · exact (hwf d (List.mem_cons_self _ _)).1
        · exact hes s hs2
    · exact ih rp v (fun d' hd' => IH d' (List.mem_cons_of_mem _ hd'))
        (fun d' hd' => hwf d' (List.mem_cons_of_mem _ hd')) h2

theorem walk_visit_sepFree (t : DirTree) :
    wfDir t = true → ∀ (rp : List String) (v : Visit), v ∈ walk t rp →
    ∃ e, v.1 = rp ++ e ∧ ∀ s ∈ e, sepChar ∉ s.data := by
  induction t using DirTree.inductionOn with
  | h n fs ds ihds =>
    intro hwf rp v hv
    rw [wfDir_node_iff] at hwf
    rw [walk_node] at hv
    rcases List.mem_cons.mp hv with h1 | h1
    · exact ⟨[], by rw [h1]; simp, by simp⟩
    · exact walkForest_visit_sepFree ds rp v (fun d hd => ihds d hd)
        hwf.2.2 h1

theorem walk_visit_sepFree_root (t : DirTree) (hwf : wfDir t = true) :
    ∀ v ∈ walk t [], ∀ s ∈ v.1, sepChar ∉ s.data := by
  intro v hv
  obtain ⟨e, he, hes⟩ := walk_visit_sepFree t hwf [] v hv
  rw [he, List.nil_append]
  exact hes

/-- Every key with an emitted heading is a nonempty prefix of the path of
some processed visited directory. -/
theorem headingKeys_sub (vs : List Visit) :
    ∀ (P k : List String), k ∈ headingKeys ((groupsAux P vs).flatten) →
    ∃ v ∈ vs, v.2 ≠ [] ∧ k ≠ [] ∧ k <+: v.1 := by
  induction vs with
  | nil =>
    intro P k hk
    simp [groupsAux, headingKeys] at hk
  | cons v vs ih =>
    intro P k hk
    rw [groupsAux] at hk
    unfold headingKeys at hk
    rw [List.flatten_cons, List.filterMap_append] at hk
    rcases List.mem_append.mp hk with h1 | h1
    · unfold visitChunks at h1
      by_cases hemp : v.2.isEmpty
      · rw [if_pos hemp] at h1
        simp at h1
      · rw [if_neg hemp] at h1
        rw [List.filterMap_append, headingKeys_dirLinkChunks, List.append_nil] at h1
        unfold dirHeadingChunks at h1
        by_cases hdp : v.1 = []
        · rw [if_pos hdp] at h1
          simp at h1
        · rw [if_neg hdp] at h1
          rw [List.mem_filterMap] at h1
          obtain ⟨c, hc, hck⟩ := h1
          match c, hck with
          | Chunk.heading k' l' s', hck =>
            have hk' : k' = k := by
              simpa [Chunk.headingKey] using hck
            subst hk'
            have := newHeadingChunks_key_mem v.1 [] 0 P k' l' s' hc
            rw [mem_accPrefixes_nil_iff] at this
            exact ⟨v, List.mem_cons_self _ _,
              fun hcon => hemp (by rw [hcon]; rfl), this.1, this.2⟩
    · obtain ⟨v', hv', hrest⟩ := ih _ k h1
      exact ⟨v', List.mem_cons_of_mem _ hv', hrest⟩

/-- How the printed set evolves over one visit, seen through `joinKey`:
afterwards a key is present iff it was before or it is a nonempty prefix of
the visit's (processed) directory. -/
theorem HP_step (P : List String) (D : List String → Bool) (v : Visit)
    (hsep : ∀ s ∈ v.1, sepChar ∉ s.data)
    (HP : ∀ k : List String, k ≠ [] → (∀ s ∈ k, sepChar ∉ s.data) →
      P.contains (joinKey k) = D k) :
    ∀ k : List String, k ≠ [] → (∀ s ∈ k, sepChar ∉ s.data) →
      (P ++ visitPrinted P v).contains (joinKey k) =
        (D k || (!(v.2.isEmpty) && k.isPrefixOf v.1)) := by
  intro k hk hks
  rw [contains_append, HP k hk hks]
  unfold visitPrinted
  by_cases hemp : v.2.isEmpty
  · rw [if_pos hemp, hemp]
    simp
  · have hemp' : (!v.2.isEmpty) = true := by
      rw [Bool.not_eq_true']
      exact Bool.not_eq_true _ ▸ hemp
    rw [if_neg hemp, hemp']
    unfold dirPrintedKeys
    by_cases hdp : v.1 = []
    · rw [if_pos hdp]
      have hpre : k.isPrefixOf v.1 = false := by
        rw [hdp]
        match k, hk with
        | a :: k', _ => rfl
      rw [hpre]
      simp
    · rw [if_neg hdp,
        newPrintedKeys_eq v.1 [] P (by simpa using hsep)]
      have hl : ∀ x ∈ (accPrefixes [] v.1).filter
          (fun q => !(P.contains (joinKey q))), x ≠ [] ∧ ∀ s ∈ x, sepChar ∉ s.data := by
        intro x hx
        have hx' := List.mem_of_mem_filter hx
        exact ⟨accPrefixes_ne_nil hx', accPrefixes_sepFree (by simpa using hsep) hx'⟩
      rw [contains_eq_decide_mem]
      by_cases hmem : joinKey k ∈ ((accPrefixes [] v.1).filter
          (fun q => !(P.contains (joinKey q)))).map joinKey
      · rw [decide_eq_true hmem]
        rw [mem_map_joinKey_iff hk hks hl, List.mem_filter,
          mem_accPrefixes_nil_iff] at hmem
        obtain ⟨⟨_, hpre⟩, hnc⟩ := hmem
        have hD : D k = false := by
          rw [← HP k hk hks]
          simpa using hnc
        have hpre' : k.isPrefixOf v.1 = true := by
          rw [List.isPrefixOf_iff_prefix]
          exact hpre
        rw [hD, hpre']
        simp
      · rw [decide_eq_false hmem]
        rw [mem_map_joinKey_iff hk hks hl] at hmem
        by_cases hD : D k = true
        · rw [hD]
          simp
        · rw [Bool.not_eq_true] at hD
          rw [hD]
          by_cases hpre : k <+: v.1
          · exfalso
            apply hmem
            rw [List.mem_filter, mem_accPrefixes_nil_iff]
            refine ⟨⟨hk, hpre⟩, ?_⟩
            rw [HP k hk hks, hD]
            rfl
          · have hpre' : k.isPrefixOf v.1 = false := by
              rw [← Bool.not_eq_true, List.isPrefixOf_iff_prefix]
              exact hpre
            rw [hpre']
            simp

theorem count_filter_nodup {l : List (List String)} (hnd : l.Nodup)
    (p : List String → Bool) (k : List String) :
    List.count k (l.filter p) = if k ∈ l ∧ p k = true then 1 else 0 := by
  by_cases hmem : k ∈ l.filter p
  · rw [count_nodup_mem (hnd.filter p) hmem]
    rw [List.mem_filter] at hmem
    rw [if_pos hmem]
  · rw [List.count_eq_zero_of_not_mem hmem]
    rw [List.mem_filter] at hmem
    rw [if_neg hmem]

theorem keyDone_cons (v : Visit) (vs : List Visit) (k : List String) :
    keyDone (v :: vs) k = ((!v.2.isEmpty && k.isPrefixOf v.1) || keyDone vs k) := by
  unfold keyDone
  rw [List.any_cons]

theorem groupsAux_heading_count :
    ∀ (vs : List Visit) (P : List String) (D : List String → Bool),
    (∀ v ∈ vs, ∀ s ∈ v.1, sepChar ∉ s.data) →
    (∀ k : List String, k ≠ [] → (∀ s ∈ k, sepChar ∉ s.data) →
      P.contains (joinKey k) = D k) →
    ∀ k : List String, k ≠ [] → (∀ s ∈ k, sepChar ∉ s.data) →
    List.count k (headingKeys ((groupsAux P vs).flatten)) =
      if D k = false ∧ keyDone vs k = true then 1 else 0 := by
  intro vs
  induction vs with
  | nil =>
    intro P D _ _ k _ _
    have h : keyDone [] k = false := rfl
    rw [h]
    simp [groupsAux, headingKeys]
  | cons v vs ih =>
    intro P D Hn HP k hk hks
    have hsepv : ∀ s ∈ v.1, sepChar ∉ s.data := Hn v (List.mem_cons_self _ _)
    have hhead : List.count k (headingKeys (visitChunks P v)) =
        if ((!v.2.isEmpty) && k.isPrefixOf v.1) = true ∧ D k = false then 1 else 0 := by
      rw [headingKeys_visitChunks P v hsepv]
      by_cases hemp : v.2.isEmpty
      · rw [if_pos hemp, hemp]
        simp
      · have hempf : v.2.isEmpty = false := by
          rw [← Bool.not_eq_true]
          exact hemp
        rw [if_neg hemp, hempf,
          count_filter_nodup (accPrefixes_nodup [] v.1) _ k]
        by_cases hpre : k <+: v.1
        · have hpre' : k.isPrefixOf v.1 = true := List.isPrefixOf_iff_prefix.mpr hpre
          by_cases hD : D k = false
          · rw [if_pos ⟨(mem_accPrefixes_nil_iff _ _).mpr ⟨hk, hpre⟩,
                by rw [HP k hk hks, hD]; rfl⟩,
              if_pos ⟨by rw [hpre']; rfl, hD⟩]
          · rw [Bool.not_eq_false] at hD
            rw [if_neg (fun hcon => by
                have hc := hcon.2
                rw [HP k hk hks, hD] at hc
                simp at hc),
              if_neg (fun hcon => by rw [hD] at hcon; simp at hcon)]
        · have hpre' : k.isPrefixOf v.1 = false := by
            rw [← Bool.not_eq_true, List.isPrefixOf_iff_prefix]
            exact hpre
          rw [if_neg (fun hcon => hpre ((mem_accPrefixes_nil_iff _ _).mp hcon.1).2),
            if_neg (fun hcon => by
              have hc := hcon.1
              rw [hpre'] at hc
              simp at hc)]
    have hrest : List.count k
        (headingKeys ((groupsAux (P ++ visitPrinted P v) vs).flatten)) =
        if (D k || (!(v.2.isEmpty) && k.isPrefixOf v.1)) = false ∧ keyDone vs k = true
        then 1 else 0 :=
      ih (P ++ visitPrinted P v)
        (fun q => D q || (!(v.2.isEmpty) && q.isPrefixOf v.1))
        (fun v' hv' => Hn v' (List.mem_cons_of_mem _ hv'))
        (HP_step P D v hsepv HP) k hk hks
    rw [groupsAux]
    unfold headingKeys
    rw [List.flatten_cons, List.filterMap_append, List.count_append]
    rw [show (visitChunks P v).filterMap Chunk.headingKey
        = headingKeys (visitChunks P v) from rfl, hhead]
    rw [show ((groupsAux (P ++ visitPrinted P v) vs).flatten).filterMap Chunk.headingKey
        = headingKeys ((groupsAux (P ++ visitPrinted P v) vs).flatten) from rfl, hrest]
    rw [keyDone_cons]
    generalize (!v.2.isEmpty && k.isPrefixOf v.1) = b0
    generalize D k = bD
    generalize keyDone vs k = bR
    cases b0 <;> cases bD <;> cases bR <;> simp

/-- First-encounter characterization: a heading for key `k` is emitted in
the group of visit `i` exactly when visit `i` is processed, `k` is a
nonempty prefix of its directory not already printed at the start, and no
earlier processed visit lies at or beneath `k`. -/
theorem groupsAux_heading_iff :
    ∀ (vs : List Visit) (P : List String) (D : List String → Bool),
    (∀ v ∈ vs, ∀ s ∈ v.1, sepChar ∉ s.data) →
    (∀ k : List String, k ≠ [] → (∀ s ∈ k, sepChar ∉ s.data) →
      P.contains (joinKey k) = D k) →
    ∀ (i : Nat) (k : List String),
    k ∈ headingKeys ((groupsAux P vs).getD i []) ↔
      ((vs.getD i ([], [])).2 ≠ [] ∧ k ≠ [] ∧ k <+: (vs.getD i ([], [])).1 ∧
        D k = false ∧
        ∀ j < i, ¬((vs.getD j ([], [])).2 ≠ [] ∧ k <+: (vs.getD j ([], [])).1)) := by
  intro vs
  induction vs with
  | nil =>
    intro P D _ _ i k
    constructor
    · intro h
      simp [groupsAux, headingKeys] at h
    · rintro ⟨h1, _⟩
      simp at h1
  | cons v vs ih =>
    intro P D Hn HP i k
    have hsepv := Hn v (List.mem_cons_self _ _)
    match i with
    | 0 =>
      rw [groupsAux, List.getD_cons_zero, List.getD_cons_zero,
        headingKeys_visitChunks P v hsepv]
      by_cases hemp : v.2.isEmpty
      · rw [if_pos hemp]
        have h2 : v.2 = [] := List.isEmpty_iff.mp hemp
        simp [h2]
      · have hempf : v.2 ≠ [] := fun hc => hemp (by rw [hc]; rfl)
        rw [if_neg hemp]
        constructor
        · intro h
          rw [List.mem_filter, mem_accPrefixes_nil_iff] at h
          obtain ⟨⟨hk, hpre⟩, hc⟩ := h
          have hks : ∀ s ∈ k, sepChar ∉ s.data :=
            fun s hs => hsepv s (hpre.sublist.subset hs)
          have hD : D k = false := by
            rw [← HP k hk hks]
            simpa using hc
          exact ⟨hempf, hk, hpre, hD, fun j hj => absurd hj (Nat.not_lt_zero j)⟩
        · rintro ⟨_, hk, hpre, hD, _⟩
          rw [List.mem_filter, mem_accPrefixes_nil_iff]
          have hks : ∀ s ∈ k, sepChar ∉ s.data :=
            fun s hs => hsepv s (hpre.sublist.subset hs)
          refine ⟨⟨hk, hpre⟩, ?_⟩
          rw [HP k hk hks, hD]
          rfl
    | i + 1 =>
      rw [groupsAux, List.getD_cons_succ, List.getD_cons_succ]
      rw [ih (P ++ visitPrinted P v)
        (fun q => D q || (!(v.2.isEmpty) && q.isPrefixOf v.1))
        (fun v' hv' => Hn v' (List.mem_cons_of_mem _ hv'))
        (HP_step P D v hsepv HP) i k]
      constructor
      · rintro ⟨h1, hk, hpre, hD', hmin⟩
        have hD'' : (D k || (!(v.2.isEmpty) && k.isPrefixOf v.1)) = false := hD'
        have hD : D k = false := by
          cases hD0 : D k
          · rfl
          · rw [hD0] at hD''
            simp at hD''
        have hb0 : (!(v.2.isEmpty) && k.isPrefixOf v.1) = false := by
          cases hb : (!(v.2.isEmpty) && k.isPrefixOf v.1)
          · rfl
          · rw [hb] at hD''
            simp at hD''
        refine ⟨h1, hk, hpre, hD, ?_⟩
        intro j hj
        match j with
        | 0 =>
          rw [List.getD_cons_zero]
          rintro ⟨hne, hp0⟩
          have he : (!v.2.isEmpty) = true := by
            cases hse : v.2.isEmpty
            · rfl
            · exact absurd (List.isEmpty_iff.mp hse) hne
          rw [he, Bool.true_and] at hb0
          exact absurd (List.isPrefixOf_iff_prefix.mpr hp0) (by rw [hb0]; simp)
        | j + 1 =>
          rw [List.getD_cons_succ]
          exact hmin j (by omega)
      · rintro ⟨h1, hk, hpre, hD, hmin⟩
        have hb0 : (!(v.2.isEmpty) && k.isPrefixOf v.1) = false := by
          have h0 := hmin 0 (Nat.succ_pos i)
          rw [List.getD_cons_zero] at h0
          by_cases hse : v.2.isEmpty = true
          · rw [hse]
            rfl
          · have hne : v.2 ≠ [] := fun hc => hse (by rw [hc]; rfl)
            by_cases hp : k <+: v.1
            · exact absurd ⟨hne, hp⟩ h0
            · have hpf : k.isPrefixOf v.1 = false := by
                rw [← Bool.not_eq_true, List.isPrefixOf_iff_prefix]
                exact hp
              rw [hpf, Bool.and_false]
        refine ⟨h1, hk, hpre, ?_, ?_⟩
        · show (D k || (!(v.2.isEmpty) && k.isPrefixOf v.1)) = false
          rw [hD, hb0]
          rfl
        · intro j hj
          have h2 := hmin (j + 1) (by omega)
          rw [List.getD_cons_succ] at h2
          exact h2

/-! ## Claim C3 -/

/-- C3: for every directory key, a heading is emitted at most once per run —
exactly once if some file-bearing (processed) directory lies at or beneath
that key, and it is emitted the first time that prefix is encountered in
traversal order: if the heading for `k` belongs to the group of visit `i`,
then visit `i` is processed, `k` is a prefix of its directory, and no
earlier visit is both processed and at-or-beneath `k`. -/
theorem C3_headings_once (rootName : String) (t : DirTree) (hwf : wfDir t = true) :
    (∀ k : List String,
      List.count k (headingKeys (generateChunks rootName t)) =
        if k ≠ [] ∧ keyDone (walk t []) k = true then 1 else 0)
    ∧ (∀ (i : Nat) (k : List String),
        k ∈ headingKeys ((groupsAux [] (walk t [])).getD i []) →
        ((walk t []).getD i ([], [])).2 ≠ [] ∧ k ≠ [] ∧
        k <+: ((walk t []).getD i ([], [])).1 ∧
        ∀ j < i, ¬(((walk t []).getD j ([], [])).2 ≠ [] ∧
          k <+: ((walk t []).getD j ([], [])).1)) := by
  have Hn := walk_visit_sepFree_root t hwf
  have HP : ∀ k : List String, k ≠ [] → (∀ s ∈ k, sepChar ∉ s.data) →
      ([] : List String).contains (joinKey k) = (fun _ : List String => false) k :=
    fun _ _ _ => rfl
  constructor
  · intro k
    have hkeys : headingKeys (generateChunks rootName t) =
        headingKeys ((groupsAux [] (walk t [])).flatten) := by
      rw [generateChunks_eq]
      rfl
    rw [hkeys]
    by_cases hk : k = []
    · subst hk
      rw [if_neg (fun hcon => hcon.1 rfl)]
      apply List.count_eq_zero_of_not_mem
      intro hmem
      obtain ⟨v, hv, _, hne, _⟩ := headingKeys_sub (walk t []) [] [] hmem
      exact hne rfl
    · by_cases hks : ∀ s ∈ k, sepChar ∉ s.data
      · rw [groupsAux_heading_count (walk t []) [] (fun _ => false) Hn HP k hk hks]
        by_cases hd : keyDone (walk t []) k = true
        · rw [if_pos ⟨rfl, hd⟩, if_pos ⟨hk, hd⟩]
        · rw [if_neg (fun h => hd h.2), if_neg (fun h => hd h.2)]
      · simp only [not_forall] at hks
        obtain ⟨s0, hs0, hs0c⟩ := hks
        rw [not_not] at hs0c
        have hnotdone : keyDone (walk t []) k = false := by
          rw [← Bool.not_eq_true]
          intro hd
          unfold keyDone at hd
          rw [List.any_eq_true] at hd
          obtain ⟨v, hv, hvp⟩ := hd
          rw [Bool.and_eq_true, List.isPrefixOf_iff_prefix] at hvp
          exact (Hn v hv s0 (hvp.2.sublist.subset hs0)) hs0c
        rw [if_neg (fun h => by rw [hnotdone] at h; exact absurd h.2 (by simp))]
        apply List.count_eq_zero_of_not_mem
        intro hmem
        obtain ⟨v, hv, _, _, hpre⟩ := headingKeys_sub (walk t []) [] k hmem
        exact (Hn v hv s0 (hpre.sublist.subset hs0)) hs0c
  · intro i k hmem
    have h := (groupsAux_heading_iff (walk t []) [] (fun _ => false) Hn HP i k).mp hmem
    exact ⟨h.1, h.2.1, h.2.2.1, h.2.2.2.2⟩

/-- Witness for C3 at a concrete tree and key. -/
theorem C3_headings_once_witness :
    wfDir sampleTree = true ∧
    List.count ["docs"] (headingKeys (generateChunks "root" sampleTree)) =
      (if ["docs"] ≠ [] ∧ keyDone (walk sampleTree []) ["docs"] = true then 1 else 0) :=
  ⟨by decide, (C3_headings_once "root" sampleTree (by decide)).1 ["docs"]⟩

/-! ## Claim C4 -/

theorem heading_shape_groupsAux (vs : List Visit) :
    ∀ (P : List String) (c : Chunk), c ∈ (groupsAux P vs).flatten →
    (∃ k, c = Chunk.heading k (k.length + 1) (k.getLastD "") ∧ k ≠ []) ∨
    (∃ p, c = Chunk.link p) := by
  induction vs with
  | nil =>
    intro P c hc
    simp [groupsAux] at hc
  | cons v vs ih =>
    intro P c hc
    rw [groupsAux, List.flatten_cons] at hc
    rcases List.mem_append.mp hc with h1 | h1
    · unfold visitChunks at h1
      by_cases hemp : v.2.isEmpty
      · rw [if_pos hemp] at h1
        simp at h1
      · rw [if_neg hemp] at h1
        rcases List.mem_append.mp h1 with h2 | h2
        · unfold dirHeadingChunks at h2
          by_cases hdp : v.1 = []
          · rw [if_pos hdp] at h2
            simp at h2
          · rw [if_neg hdp] at h2
            exact Or.inl (newHeadingChunks_shape v.1 [] P c h2)
        · unfold dirLinkChunks at h2
          rw [List.mem_map] at h2
          obtain ⟨f, _, hf⟩ := h2
          exact Or.inr ⟨_, hf.symm⟩
    · exact ih _ c h1

/-- C4: every emitted directory heading for a key at depth `d` (that is,
with `d` path segments, `d ≥ 1`) uses Markdown heading level `d + 1`, and
the root title is the first chunk and renders at level 1 (`# `). -/
theorem C4_heading_levels (rootName : String) (t : DirTree) :
    (∀ (k : List String) (l : Nat) (s : String),
      Chunk.heading k l s ∈ generateChunks rootName t →
        l = k.length + 1 ∧ 1 ≤ k.length)
    ∧ (generateChunks rootName t).head? = some (Chunk.title rootName)
    ∧ (Chunk.title rootName).render = "# " ++ rootName ++ "\n" := by
  refine ⟨?_, ?_, rfl⟩
  · intro k l s hmem
    rw [generateChunks_eq] at hmem
    rcases List.mem_cons.mp hmem with h1 | h1
    · exact absurd h1 (by simp)
    · rcases heading_shape_groupsAux (walk t []) [] _ h1 with ⟨k', hck, hkne⟩ | ⟨p, hcp⟩
      · injection hck with e1 e2 e3
        subst e1
        refine ⟨e2, ?_⟩
        have : k.length ≠ 0 := fun hc => hkne (List.length_eq_zero.mp hc)
        omega
      · exact absurd hcp (by simp)
  · rw [generateChunks_eq]
    rfl

/-- Witness for C4 at a concrete tree and heading. -/
theorem C4_heading_levels_witness :
    Chunk.heading ["docs"] 2 "docs" ∈ generateChunks "root" sampleTree ∧
    (2 = (["docs"] : List String).length + 1 ∧ 1 ≤ (["docs"] : List String).length) :=
  ⟨by decide, (C4_heading_levels "root" sampleTree).1 ["docs"] 2 "docs" (by decide)⟩

/-! ## Claim C6 -/

theorem charLe_total : ∀ x y : List Char, charLe x y = true ∨ charLe y x = true
  | [], _ => Or.inl rfl
  | _ :: _, [] => Or.inr rfl
  | a :: as, b :: bs => by
    unfold charLe
    by_cases hab : a.toNat < b.toNat
    · exact Or.inl (by rw [if_pos hab])
    · by_cases hba : b.toNat < a.toNat
      · exact Or.inr (by rw [if_pos hba])
      · rcases charLe_total as bs with h | h
        · exact Or.inl (by rw [if_neg hab, if_neg hba]; exact h)
        · exact Or.inr (by rw [if_neg hba, if_neg hab]; exact h)

theorem charLe_trans : ∀ x y z : List Char,
    charLe x y = true → charLe y z = true → charLe x z = true
  | [], _, _, _, _ => rfl
  | a :: as, [], _, h, _ => by
    unfold charLe at h
    exact absurd h (by simp)
  | a :: as, b :: bs, [], _, h => by
    unfold charLe at h
    exact absurd h (by simp)
  | a :: as, b :: bs, c :: cs, h1, h2 => by
    unfold charLe at h1 h2 ⊢
    by_cases hab : a.toNat < b.toNat
    · by_cases hbc : b.toNat < c.toNat
      · rw [if_pos (by omega : a.toNat < c.toNat)]
      · by_cases hcb : c.toNat < b.toNat
        · rw [if_neg hbc, if_pos hcb] at h2
          exact absurd h2 (by simp)
        · rw [if_pos (by omega : a.toNat < c.toNat)]
    · by_cases hba : b.toNat < a.toNat
      · rw [if_neg hab, if_pos hba] at h1
        exact absurd h1 (by simp)
      · by_cases hbc : b.toNat < c.toNat
        · rw [if_pos (by omega : a.toNat < c.toNat)]
        · by_cases hcb : c.toNat < b.toNat
          · rw [if_neg hbc, if_pos hcb] at h2
            exact absurd h2 (by simp)
          · rw [if_neg hab, if_neg hba] at h1
            rw [if_neg hbc, if_neg hcb] at h2
            rw [if_neg (by omega : ¬a.toNat < c.toNat),
              if_neg (by omega : ¬c.toNat < a.toNat)]
            exact charLe_trans as bs cs h1 h2

instance : IsTotal String (fun a b => fileLe a b = true) :=
  ⟨fun a b => charLe_total a.data b.data⟩

instance : IsTrans String (fun a b => fileLe a b = true) :=
  ⟨fun a b c => charLe_trans a.data b.data c.data⟩

/-- The file names of the link chunks of a chunk list, in emission order. -/
def linkNames (cs : List Chunk) : List String :=
  (linkPaths cs).map (fun p => p.getLastD "")

theorem linkNames_visitChunks (printed : List String) (v : Visit) :
    linkNames (visitChunks printed v) = sortFiles v.2 := by
  unfold linkNames linkPaths
  rw [linkPaths_visitChunks]
  unfold visitLinkPaths
  rw [List.map_map]
  have h : ∀ f ∈ sortFiles v.2,
      ((fun p => p.getLastD "") ∘ fun f => v.1 ++ [f]) f = f := by
    intro f _
    simp [Function.comp, List.getLastD_concat]
  rw [List.map_congr_left h]
  simp

theorem sorted_linkNames_groupsAux (vs : List Visit) :
    ∀ (P : List String) (i : Nat),
    List.Sorted (fun a b => fileLe a b = true)
      (linkNames ((groupsAux P vs).getD i [])) := by
  induction vs with
  | nil =>
    intro P i
    have h : (groupsAux P ([] : List Visit)).getD i [] = [] := by
      unfold groupsAux
      match i with
      | 0 => rfl
      | i + 1 => rfl
    rw [h]
    exact List.sorted_nil
  | cons v vs ih =>
    intro P i
    rw [groupsAux]
    match i with
    | 0 =>
      rw [List.getD_cons_zero, linkNames_visitChunks]
      exact List.sorted_insertionSort _ _
    | i + 1 =>
      rw [List.getD_cons_succ]
      exact ih _ i

/-- C6: the output decomposes into the title followed by one chunk group
per visited directory, and within each group the file links are emitted
sorted lexicographically ascending (code-point order) by file name. -/
theorem C6_links_sorted (rootName : String) (t : DirTree) :
    generateChunks rootName t =
      Chunk.title rootName :: (groupsAux [] (walk t [])).flatten
    ∧ ∀ i : Nat, List.Sorted (fun a b => fileLe a b = true)
        (linkNames ((groupsAux [] (walk t [])).getD i [])) :=
  ⟨generateChunks_eq rootName t, fun i => sorted_linkNames_groupsAux (walk t []) [] i⟩

/-! ## Claim C5: positional lemmas -/

theorem flatten_eq_append_cons {gs : List (List Chunk)} :
    ∀ {pre post : List Chunk} {c : Chunk},
    gs.flatten = pre ++ c :: post →
    ∃ i p₁ p₂, i < gs.length ∧ gs.getD i [] = p₁ ++ c :: p₂ ∧
      pre = ((gs.take i).flatten) ++ p₁ := by
  induction gs with
  | nil =>
    intro pre post c h
    rw [List.flatten_nil] at h
    simp at h
  | cons g gs ih =>
    intro pre post c h
    rw [List.flatten_cons] at h
    rcases List.append_eq_append_iff.mp h with ⟨a', hpre, hrest⟩ | ⟨c', hg, hpost⟩
    · obtain ⟨i, p₁, p₂, hi, hgi, hpre'⟩ := ih hrest
      refine ⟨i + 1, p₁, p₂, by simp; omega, by rw [List.getD_cons_succ]; exact hgi, ?_⟩
      rw [hpre, hpre', List.take_succ_cons, List.flatten_cons, List.append_assoc]
    · match c', hpost with
      | [], hpost =>
        rw [List.nil_append] at hpost
        obtain ⟨i, p₁, p₂, hi, hgi, hpre'⟩ :=
          ih (show gs.flatten = [] ++ c :: post by rw [List.nil_append]; exact hpost.symm)
        refine ⟨i + 1, p₁, p₂, by simp; omega,
          by rw [List.getD_cons_succ]; exact hgi, ?_⟩
        rw [List.take_succ_cons, List.flatten_cons, List.append_assoc, ← hpre',
          List.append_nil]
        rw [hg, List.append_nil]
      | c'' :: c₂, hpost =>
        have hc : c'' = c ∧ c₂ ++ gs.flatten = post := by
          have := hpost
          rw [List.cons_append] at this
          exact ⟨(List.cons_eq_cons.mp this).1.symm, (List.cons_eq_cons.mp this).2.symm⟩
        refine ⟨0, pre, c₂, by simp, ?_, by simp⟩
        rw [List.getD_cons_zero, hg, hc.1]

theorem mem_flatten_take {gs : List (List Chunk)} :
    ∀ {i : Nat} {c : Chunk}, c ∈ (gs.take i).flatten →
    ∃ j, j < i ∧ j < gs.length ∧ c ∈ gs.getD j [] := by
  induction gs with
  | nil =>
    intro i c h
    rw [List.take_nil] at h
    simp at h
  | cons g gs ih =>
    intro i c h
    match i with
    | 0 => simp at h
    | i + 1 =>
      rw [List.take_succ_cons, List.flatten_cons] at h
      rcases List.mem_append.mp h with h1 | h1
      · exact ⟨0, by omega, by simp, by rw [List.getD_cons_zero]; exact h1⟩
      · obtain ⟨j, hj1, hj2, hj3⟩ := ih h1
        exact ⟨j + 1, by omega, by simp; omega,
          by rw [List.getD_cons_succ]; exact hj3⟩

theorem link_not_mem_newHeadingChunks {parts acc : List String} {i : Nat}
    {printed : List String} {p : List String}
    (h : Chunk.link p ∈ newHeadingChunks parts acc i printed) : False := by
  have h2 : p ∈ (newHeadingChunks parts acc i printed).filterMap Chunk.linkPath := by
    rw [List.mem_filterMap]
    exact ⟨Chunk.link p, h, rfl⟩
  rw [linkPaths_newHeadingChunks] at h2
  simp at h2

theorem link_mem_groupsAux (vs : List Visit) :
    ∀ (P : List String) (j : Nat) (p : List String),
    Chunk.link p ∈ (groupsAux P vs).getD j [] →
    (vs.getD j ([], [])).2 ≠ [] ∧ p.dropLast = (vs.getD j ([], [])).1 := by
  induction vs with
  | nil =>
    intro P j p h
    have hj : (groupsAux P ([] : List Visit)).getD j [] = [] := by
      unfold groupsAux
      match j with
      | 0 => rfl
      | j + 1 => rfl
    rw [hj] at h
    simp at h
  | cons v vs ih =>
    intro P j p h
    rw [groupsAux] at h
    match j with
    | 0 =>
      rw [List.getD_cons_zero] at h
      rw [List.getD_cons_zero]
      unfold visitChunks at h
      by_cases hemp : v.2.isEmpty
      · rw [if_pos hemp] at h
        simp at h
      · rw [if_neg hemp] at h
        refine ⟨fun hc => hemp (by rw [hc]; rfl), ?_⟩
        rcases List.mem_append.mp h with h1 | h1
        · unfold dirHeadingChunks at h1
          by_cases hdp : v.1 = []
          · rw [if_pos hdp] at h1
            simp at h1
          · rw [if_neg hdp] at h1
            exact absurd h1 link_not_mem_newHeadingChunks
        · unfold dirLinkChunks at h1
          rw [List.mem_map] at h1
          obtain ⟨f, _, hf⟩ := h1
          have hp : p = v.1 ++ [f] := by
            have := hf.symm
            injection this with h3
            rw [h3, linkPath_if]
          rw [hp, List.dropLast_concat]
    | j + 1 =>
      rw [List.getD_cons_succ] at h
      rw [List.getD_cons_succ]
      exact ih _ j p h

theorem groupsAux_getD_eq (vs : List Visit) :
    ∀ (P : List String) (i : Nat), i < vs.length →
    (groupsAux P vs).getD i [] =
      visitChunks (printedAfterAux P (vs.take i)) (vs.getD i ([], [])) := by
  induction vs with
  | nil =>
    intro P i hi
    simp at hi
  | cons v vs ih =>
    intro P i hi
    rw [groupsAux]
    match i with
    | 0 =>
      rw [List.getD_cons_zero, List.getD_cons_zero, List.take_zero]
      rfl
    | i + 1 =>
      rw [List.getD_cons_succ, List.getD_cons_succ, List.take_succ_cons]
      rw [ih _ i (by simp at hi; omega)]
      rfl

theorem groupsAux_length (vs : List Visit) :
    ∀ P : List String, (groupsAux P vs).length = vs.length := by
  induction vs with
  | nil => intro P; rfl
  | cons v vs ih =>
    intro P
    rw [groupsAux, List.length_cons, List.length_cons, ih]

theorem walk_root (t : DirTree) :
    walk t [] = ([], filterFiles t.files) :: walkForest t.subdirs [] := by
  cases t with
  | node n fs ds =>
    rw [walk_node]
    rfl

theorem heading_split_in_group {Pb : List String} {v₀ : Visit}
    (hsep : ∀ s ∈ v₀.1, sepChar ∉ s.data)
    {p₁ p₂ : List Chunk} {k : List String} {l : Nat} {s : String}
    (hgroup : visitChunks Pb v₀ = p₁ ++ Chunk.heading k l s :: p₂) :
    (∀ p : List String, Chunk.link p ∈ p₁ → False) ∧
    (∀ (k' : List String) (l' : Nat) (s' : String),
      Chunk.heading k' l' s' ∈ p₁ → k'.length < k.length) := by
  by_cases hemp : v₀.2.isEmpty
  · rw [show visitChunks Pb v₀ = [] from by unfold visitChunks; rw [if_pos hemp]] at hgroup
    simp at hgroup
  · have hvc : visitChunks Pb v₀ =
        dirHeadingChunks Pb v₀.1 ++ dirLinkChunks v₀.1 v₀.2 := by
      unfold visitChunks
      rw [if_neg hemp]
    rw [hvc] at hgroup
    rcases List.append_eq_append_iff.mp hgroup with ⟨a', hp₁, hL⟩ | ⟨c', hH, hrest⟩
    · exfalso
      have hm : Chunk.heading k l s ∈ dirLinkChunks v₀.1 v₀.2 := by
        rw [hL]
        exact List.mem_append.mpr (Or.inr (List.mem_cons_self _ _))
      unfold dirLinkChunks at hm
      rw [List.mem_map] at hm
      obtain ⟨f, _, hf⟩ := hm
      exact absurd hf (by simp)
    · match c', hrest with
      | [], hrest =>
        exfalso
        rw [List.nil_append] at hrest
        have hm : Chunk.heading k l s ∈ dirLinkChunks v₀.1 v₀.2 := by
          rw [← hrest]
          exact List.mem_cons_self _ _
        unfold dirLinkChunks at hm
        rw [List.mem_map] at hm
        obtain ⟨f, _, hf⟩ := hm
        exact absurd hf (by simp)
      | c'' :: c₂, hrest =>
        have hc'' : c'' = Chunk.heading k l s := by
          rw [List.cons_append] at hrest
          exact ((List.cons_eq_cons.mp hrest).1).symm
        subst hc''
        have hH2 : dirHeadingChunks Pb v₀.1 = p₁ ++ Chunk.heading k l s :: c₂ := hH
        have hdp : v₀.1 ≠ [] := by
          intro hc
          rw [show dirHeadingChunks Pb v₀.1 = [] from by
            unfold dirHeadingChunks; rw [if_pos hc]] at hH2
          simp at hH2
        have hH3 : dirHeadingChunks Pb v₀.1 =
            ((accPrefixes [] v₀.1).filter (fun q => !(Pb.contains (joinKey q)))).map
              (fun q => Chunk.heading q (q.length + 1) (q.getLastD "")) := by
          unfold dirHeadingChunks
          rw [if_neg hdp]
          exact newHeadingChunks_eq v₀.1 [] Pb (by simpa using hsep)
        rw [hH3] at hH2
        rcases List.map_eq_append_iff.mp hH2 with ⟨l₁, l₂', hl', hm₁, hm₂⟩
        rcases List.map_eq_cons_iff.mp hm₂ with ⟨x, l₂, hl₂, hx, hm₃⟩
        have hxk : x = k := by
          injection hx with e1 e2 e3
        subst hxk
        constructor
        · intro p hp
          rw [← hm₁, List.mem_map] at hp
          obtain ⟨q, _, hq⟩ := hp
          exact absurd hq (by simp)
        · intro k' l' s' hp
          rw [← hm₁, List.mem_map] at hp
          obtain ⟨q, hq, hqe⟩ := hp
          have hqk' : q = k' := by
            injection hqe with e1 e2 e3
          subst hqk'
          have hfs : (List.filter (fun q => !(Pb.contains (joinKey q)))
              (accPrefixes [] v₀.1)).Sublist (accPrefixes [] v₀.1) :=
            List.filter_sublist _
          have hpl := List.Pairwise.sublist hfs (accPrefixes_pairwise_length [] v₀.1)
          rw [hl', hl₂, List.pairwise_append] at hpl
          exact hpl.2.2 q hq x (List.mem_cons_self _ _)

/-! ## Claim C5 -/

/-- C5: every emitted directory heading precedes all file links and all
child-directory headings for paths at or beneath that directory, and links
for files directly in the root appear immediately after the top-level
title, before any subdirectory heading (all later chunks are links of
depth ≥ 2 or headings). -/
theorem C5_heading_order (rootName : String) (t : DirTree) (hwf : wfDir t = true) :
    (∃ rest, generateChunks rootName t =
        Chunk.title rootName ::
          ((sortFiles (filterFiles t.files)).map (fun f => Chunk.link [f]) ++ rest) ∧
      ∀ p : List String, Chunk.link p ∈ rest → 2 ≤ p.length)
    ∧ ∀ (pre post : List Chunk) (k : List String) (l : Nat) (s : String),
        generateChunks rootName t = pre ++ Chunk.heading k l s :: post →
        (∀ p : List String, Chunk.link p ∈ pre → ¬ k <+: p.dropLast)
        ∧ ∀ (k' : List String) (l' : Nat) (s' : String),
            Chunk.heading k' l' s' ∈ pre → ¬(k <+: k' ∧ k' ≠ k) := by
  have Hn := walk_visit_sepFree_root t hwf
  have HP : ∀ k : List String, k ≠ [] → (∀ s ∈ k, sepChar ∉ s.data) →
      ([] : List String).contains (joinKey k) = (fun _ : List String => false) k :=
    fun _ _ _ => rfl
  constructor
  · refine ⟨(groupsAux ([] ++ visitPrinted [] ([], filterFiles t.files))
        (walkForest t.subdirs [])).flatten, ?_, ?_⟩
    · rw [generateChunks_eq, walk_root, groupsAux, List.flatten_cons]
      congr 2
      unfold visitChunks
      by_cases h : (filterFiles t.files).isEmpty
      · rw [if_pos h]
        have h2 := List.isEmpty_iff.mp h
        rw [h2]
        rfl
      · rw [if_neg h]
        unfold dirHeadingChunks dirLinkChunks
        simp
    · intro p hp
      have hp2 : p ∈ ((groupsAux ([] ++ visitPrinted [] ([], filterFiles t.files))
          (walkForest t.subdirs [])).flatten).filterMap Chunk.linkPath := by
        rw [List.mem_filterMap]
        exact ⟨Chunk.link p, hp, rfl⟩
      rw [linkPaths_groupsAux, List.mem_flatMap] at hp2
      obtain ⟨v, hv, hpv⟩ := hp2
      unfold visitLinkPaths at hpv
      rw [List.mem_map] at hpv
      obtain ⟨f, _, rfl⟩ := hpv
      obtain ⟨e, he, hene⟩ := walkForest_visit_prefix t.subdirs [] v
        (fun d _ => walk_visit_prefix d) hv
      rw [List.nil_append] at he
      rw [List.length_append, he]
      have hlen : e.length ≠ 0 := fun hc => hene (List.length_eq_zero.mp hc)
      simp only [List.length_singleton]
      omega
  · intro pre post k l s heq
    rw [generateChunks_eq] at heq
    match pre, heq with
    | [], heq =>
      rw [List.nil_append] at heq
      exact absurd (List.cons_eq_cons.mp heq).1 (by simp)
    | c0 :: pre', heq =>
      rw [List.cons_append] at heq
      have h2 : (groupsAux [] (walk t [])).flatten =
          pre' ++ Chunk.heading k l s :: post :=
        (List.cons_eq_cons.mp heq).2
      have hc0 : c0 = Chunk.title rootName := (List.cons_eq_cons.mp heq).1.symm
      obtain ⟨i₀, p₁, p₂, hi₀g, hgroup, hpre'⟩ := flatten_eq_append_cons h2
      have hi₀ : i₀ < (walk t []).length := by
        rw [← groupsAux_length (walk t []) []]
        exact hi₀g
      have hkmem : k ∈ headingKeys ((groupsAux [] (walk t [])).getD i₀ []) := by
        unfold headingKeys
        rw [List.mem_filterMap]
        refine ⟨Chunk.heading k l s, ?_, rfl⟩
        rw [hgroup]
        exact List.mem_append.mpr (Or.inr (List.mem_cons_self _ _))
      have hfirst := (groupsAux_heading_iff (walk t []) []
        (fun _ => false) Hn HP i₀ k).mp hkmem
      have hmem_pre : ∀ c : Chunk, c ∈ pre' →
          (∃ j, j < i₀ ∧ j < (walk t []).length ∧
            c ∈ (groupsAux [] (walk t [])).getD j []) ∨ c ∈ p₁ := by
        intro c hc
        rw [hpre'] at hc
        rcases List.mem_append.mp hc with h | h
        · obtain ⟨j, hj1, hj2, hj3⟩ := mem_flatten_take h
          rw [groupsAux_length (walk t []) []] at hj2
          exact Or.inl ⟨j, hj1, hj2, hj3⟩
        · exact Or.inr h
      have hgrp_eq := groupsAux_getD_eq (walk t []) [] i₀ hi₀
      have hsep₀ : ∀ s2 ∈ ((walk t []).getD i₀ ([], [])).1, sepChar ∉ s2.data := by
        intro s2 hs2
        have hvmem : (walk t []).getD i₀ ([], []) ∈ walk t [] := by
          rw [List.getD_eq_getElem _ _ hi₀]
          exact List.getElem_mem hi₀
        exact Hn _ hvmem s2 hs2
      rw [hgrp_eq] at hgroup
      have hsplit := heading_split_in_group hsep₀ hgroup
      constructor
      · intro p hp hpcon
        rcases List.mem_cons.mp hp with h | h
        · rw [hc0] at h
          exact absurd h (by simp)
        · rcases hmem_pre _ h with ⟨j, hj1, hj2, hj3⟩ | hin
          · have hA := link_mem_groupsAux (walk t []) [] j p hj3
            exact (hfirst.2.2.2.2 j hj1) ⟨hA.1, by rw [← hA.2]; exact hpcon⟩
          · exact hsplit.1 p hin
      · intro k' l' s' hp hcon
        rcases List.mem_cons.mp hp with h | h
        · rw [hc0] at h
          exact absurd h (by simp)
        · rcases hmem_pre _ h with ⟨j, hj1, hj2, hj3⟩ | hin
          · have hk'mem : k' ∈ headingKeys ((groupsAux [] (walk t [])).getD j []) := by
              unfold headingKeys
              rw [List.mem_filterMap]
              exact ⟨Chunk.heading k' l' s', hj3, rfl⟩
            have hk'f := (groupsAux_heading_iff (walk t []) []
              (fun _ => false) Hn HP j k').mp hk'mem
            exact (hfirst.2.2.2.2 j hj1) ⟨hk'f.1, hcon.1.trans hk'f.2.2.1⟩
          · have hlen := hsplit.2 k' l' s' hin
            have hle := hcon.1.length_le
            omega

/-- Witness for C5 at a concrete tree and decomposition. -/
theorem C5_heading_order_witness :
    wfDir sampleTree = true ∧
    ((∃ rest, generateChunks "root" sampleTree =
        Chunk.title "root" ::
          ((sortFiles (filterFiles sampleTree.files)).map (fun f => Chunk.link [f])
            ++ rest) ∧
      ∀ p : List String, Chunk.link p ∈ rest → 2 ≤ p.length)) :=
  ⟨by decide, (C5_heading_order "root" sampleTree (by decide)).1⟩
